import Mathlib

/-!
# Math-Mentor case-memory store and pipeline: a shallow embedding

This file embeds the `MemoryStore` class of `src/memory/store.py` and the
solve-button pipeline of `src/app.py` in Lean 4 and proves the specified
properties of the store (persistence round trip, similarity retrieval,
append/reset behaviour) and of the pipeline (halt on first stage failure).

JSON values are modelled by the inductive `Json`; a JSON number is carried
as its literal text (Python writes a float via `repr` and reads the same
float back, so identity of the literal is identity of the value).  Python
floats in similarity scores are modelled by exact rationals.
-/

/-- A JSON value as manipulated by `json.load` / `json.dump`.  Numbers are
kept as their literal source text; objects are key/value lists in insertion
order (Python dicts preserve insertion order). -/
inductive Json where
  | null
  | bool (b : Bool)
  | num (lit : String)
  | str (s : String)
  | arr (elems : List Json)
  | obj (fields : List (String × Json))
  deriving Repr

/-- First-match lookup in an object's field list; Python dicts hold each key
at most once, so first match is the dict lookup. -/
def dictGet : List (String × Json) → String → Option Json
  | [], _ => none
  | (k, v) :: rest, key => if k = key then some v else dictGet rest key

/-- `d.get(key)` — missing keys give `None` (here `Json.null`). -/
def pyGet (fields : List (String × Json)) (key : String) : Json :=
  (dictGet fields key).getD Json.null

/-- `d.get(key, default)`. -/
def pyGetD (fields : List (String × Json)) (key : String) (default : Json) : Json :=
  (dictGet fields key).getD default

/-! ## Serialization: `json.dump(obj, f, indent=2, ensure_ascii=False)` -/

/-- Lowercase hexadecimal digit, as Python's `\uXXXX` escapes use. -/
def hexDigit (n : Nat) : Char :=
  if n < 10 then Char.ofNat (48 + n) else Char.ofNat (87 + n)

/-- Escape one character the way `json.dump` with `ensure_ascii=False` does:
`"` and `\` get backslash escapes, control characters below 0x20 get their
short escapes or `\u00XX`, and everything else is written literally. -/
def escapeChar (c : Char) : List Char :=
  if c = '"' then ['\\', '"']
  else if c = '\\' then ['\\', '\\']
  else if c = Char.ofNat 8 then ['\\', 'b']
  else if c = Char.ofNat 9 then ['\\', 't']
  else if c = Char.ofNat 10 then ['\\', 'n']
  else if c = Char.ofNat 12 then ['\\', 'f']
  else if c = Char.ofNat 13 then ['\\', 'r']
  else if c.toNat < 32 then
    ['\\', 'u', '0', '0', hexDigit (c.toNat / 16), hexDigit (c.toNat % 16)]
  else [c]

/-- Escape a character list. -/
def escapeList : List Char → List Char
  | [] => []
  | c :: cs => escapeChar c ++ escapeList cs

/-- A JSON string literal: quotes around the escaped contents. -/
def escapeString (s : String) : List Char :=
  '"' :: (escapeList s.toList ++ ['"'])

/-- The indentation written at nesting level `lvl` with `indent=2`. -/
def indentChars (lvl : Nat) : List Char := List.replicate (2 * lvl) ' '

mutual

/-- Serialize a JSON value at nesting level `lvl`, following
`json.dump(..., indent=2, ensure_ascii=False)`: empty containers print as
`[]`/`{}`, non-empty ones put each item on its own indented line, item
separator `,`, key separator `: `. -/
def serializeVal (lvl : Nat) : Json → List Char
  | Json.null => ['n', 'u', 'l', 'l']
  | Json.bool true => ['t', 'r', 'u', 'e']
  | Json.bool false => ['f', 'a', 'l', 's', 'e']
  | Json.num lit => lit.toList
  | Json.str s => escapeString s
  | Json.arr [] => ['[', ']']
  | Json.arr (x :: xs) =>
    '[' :: '\n' :: (serializeElems lvl (x :: xs) ++ ('\n' :: indentChars lvl ++ [']']))
  | Json.obj [] => ['{', '}']
  | Json.obj (kv :: kvs) =>
    '{' :: '\n' :: (serializeMems lvl (kv :: kvs) ++ ('\n' :: indentChars lvl ++ ['}']))

/-- Serialize the items of a non-empty array, one per line at level `lvl+1`,
separated by `,` and a newline. -/
def serializeElems (lvl : Nat) : List Json → List Char
  | [] => []
  | [x] => indentChars (lvl + 1) ++ serializeVal (lvl + 1) x
  | x :: y :: rest =>
    indentChars (lvl + 1) ++ serializeVal (lvl + 1) x ++
      (',' :: '\n' :: serializeElems lvl (y :: rest))

/-- Serialize the members of a non-empty object, `"key": value` per line. -/
def serializeMems (lvl : Nat) : List (String × Json) → List Char
  | [] => []
  | [(k, v)] =>
    indentChars (lvl + 1) ++ escapeString k ++ (':' :: ' ' :: serializeVal (lvl + 1) v)
  | (k, v) :: kv :: rest =>
    indentChars (lvl + 1) ++ escapeString k ++ (':' :: ' ' :: serializeVal (lvl + 1) v) ++
      (',' :: '\n' :: serializeMems lvl (kv :: rest))

end

/-- The full file contents `json.dump` writes for a value. -/
def dumps (j : Json) : String := String.mk (serializeVal 0 j)

/-! ## The backing file and the mutating store operations -/

/-- The state of the backing storage file: its contents when it exists, and
whether writes to it succeed (an unwritable location makes `open(..., 'w')`
raise, which `save_memories` catches). -/
structure FS where
  file : Option String
  writable : Bool
  deriving DecidableEq, Repr

/-- `MemoryStore.save_memories`: writes the whole sequence as pretty-printed
JSON and returns `True`; any failure is caught and reported as `False`, with
the file left as it was. -/
def save_memories (mems : List Json) (fs : FS) : FS × Bool :=
  if fs.writable then ({ fs with file := some (dumps (Json.arr mems)) }, true)
  else (fs, false)

/-- The record dict built by `MemoryStore.store_interaction`: field order and
defaults exactly as in the source (`data.get(...)` gives `None` when missing,
`user_comment` defaults to `""`).  The fresh `uuid.uuid4()` and
`datetime.now().isoformat()` are oracle inputs `newId` and `ts`. -/
def mkMemory (newId ts : String) (data : List (String × Json)) : Json :=
  Json.obj [
    ("id", Json.str newId),
    ("timestamp", Json.str ts),
    ("original_input", pyGet data "original_input"),
    ("input_type", pyGet data "input_type"),
    ("parsed_problem", pyGet data "parsed_problem"),
    ("solution", pyGet data "solution"),
    ("verification", pyGet data "verification"),
    ("feedback", pyGet data "feedback"),
    ("user_comment", pyGetD data "user_comment" (Json.str ""))]

/-- `MemoryStore.store_interaction`: appends the new record to the in-memory
list, saves the whole list, prints a message depending on the save result,
and returns the record's id (the save result itself is not returned). -/
def store_interaction (mems : List Json) (fs : FS) (newId ts : String)
    (data : List (String × Json)) : List Json × FS × String :=
  let memory := mkMemory newId ts data
  let mems' := mems ++ [memory]
  let fs' := (save_memories mems' fs).1
  (mems', fs', newId)

/-- `MemoryStore.clear_memories`: replaces the in-memory list by `[]`, saves,
and returns the save result. -/
def clear_memories (fs : FS) : List Json × FS × Bool :=
  let saved := save_memories [] fs
  ([], saved.1, saved.2)

/-- `MemoryStore.get_all_memories`. -/
def get_all_memories (mems : List Json) : List Json := mems

/-! ## Parsing: `json.load` (strict decoder, default hooks) -/

/-- The whitespace characters the Python JSON lexer skips. -/
def isJsonWs (c : Char) : Bool := c = ' ' || c = '\t' || c = '\n' || c = '\r'

/-- Skip whitespace before a token. -/
def skipWs (cs : List Char) : List Char := cs.dropWhile isJsonWs

/-- Value of one hexadecimal digit, either case. -/
def hexVal (c : Char) : Option Nat :=
  if '0' ≤ c ∧ c ≤ '9' then some (c.toNat - 48)
  else if 'a' ≤ c ∧ c ≤ 'f' then some (c.toNat - 87)
  else if 'A' ≤ c ∧ c ≤ 'F' then some (c.toNat - 55)
  else none

/-- The two-character backslash escapes of JSON strings. -/
def simpleUnescape (c : Char) : Option Char :=
  if c = '"' then some '"'
  else if c = '\\' then some '\\'
  else if c = '/' then some '/'
  else if c = 'b' then some (Char.ofNat 8)
  else if c = 'f' then some (Char.ofNat 12)
  else if c = 'n' then some '\n'
  else if c = 'r' then some '\r'
  else if c = 't' then some '\t'
  else none

/-- Parse the body of a string literal after the opening quote, returning the
decoded characters and the input after the closing quote.  The strict decoder
rejects raw control characters.  Lone surrogates cannot inhabit `Char`, so
`\uXXXX` in the surrogate range is rejected (Python would pair surrogates; the
serializer never emits them, so this corner does not affect round trips). -/
def parseStringBody : List Char → Option (List Char × List Char)
  | [] => none
  | c :: rest =>
    if c = '"' then some ([], rest)
    else if c = '\\' then
      match rest with
      | [] => none
      | e :: rest1 =>
        if e = 'u' then
          match rest1 with
          | h1 :: h2 :: h3 :: h4 :: rest2 =>
            match hexVal h1, hexVal h2, hexVal h3, hexVal h4 with
            | some a, some b, some c2, some d =>
              let n := 4096 * a + 256 * b + 16 * c2 + d
              if 0xD800 ≤ n ∧ n < 0xE000 then none
              else
                match parseStringBody rest2 with
                | some (s, r) => some (Char.ofNat n :: s, r)
                | none => none
            | _, _, _, _ => none
          | _ => none
        else
          match simpleUnescape e with
          | some d =>
            match parseStringBody rest1 with
            | some (s, r) => some (d :: s, r)
            | none => none
          | none => none
    else if c.toNat < 32 then none
    else
      match parseStringBody rest with
      | some (s, r) => some (c :: s, r)
      | none => none

/-- Characters that can occur in a JSON number literal. -/
def isNumChar (c : Char) : Bool :=
  c.isDigit || c = '-' || c = '+' || c = '.' || c = 'e' || c = 'E'

/-- One or more digits, returning the rest. -/
def digits1 : List Char → Option (List Char)
  | c :: rest => if c.isDigit then some (rest.dropWhile Char.isDigit) else none
  | [] => none

/-- The integer part of a JSON number: `0` or a nonzero digit run. -/
def intPart : List Char → Option (List Char)
  | c :: rest =>
    if c = '0' then some rest
    else if c.isDigit then some (rest.dropWhile Char.isDigit)
    else none
  | [] => none

/-- The optional fraction part `.digits`. -/
def fracPart : List Char → Option (List Char)
  | [] => some []
  | c :: rest => if c = '.' then digits1 rest else some (c :: rest)

/-- The optional exponent part `[eE][+-]?digits`. -/
def expPart : List Char → Option (List Char)
  | c :: rest =>
    if c = 'e' ∨ c = 'E' then
      match rest with
      | s :: rest1 => if s = '+' ∨ s = '-' then digits1 rest1 else digits1 (s :: rest1)
      | [] => none
    else some (c :: rest)
  | [] => some []

/-- Whether a character run is a complete JSON number literal,
`-?(0|[1-9][0-9]*)(\.[0-9]+)?([eE][+-]?[0-9]+)?`. -/
def validNumberLit (cs : List Char) : Bool :=
  let body :=
    match cs with
    | [] => []
    | c :: rest => if c = '-' then rest else c :: rest
  match intPart body with
  | none => false
  | some r1 =>
    match fracPart r1 with
    | none => false
    | some r2 =>
      match expPart r2 with
      | none => false
      | some r3 => r3.isEmpty

mutual

/-- Parse one JSON value after optional whitespace.  `fuel` bounds the
recursion depth; `parseJson` supplies more fuel than any input can use.  The
dispatch order mirrors the Python scanner: string, object, array, the
keywords `null`/`true`/`false`, a number, then the non-standard constants
`NaN`, `Infinity`, `-Infinity` the Python decoder accepts by default.
Keyword and constant tokens are matched by prefix exactly as the Python
scanner does; a number is read as the maximal run of number characters and
checked against the JSON number grammar (equivalent to the scanner's regex
match on every whole document). -/
def parseValue : Nat → List Char → Option (Json × List Char)
  | 0, _ => none
  | fuel + 1, input =>
    match skipWs input with
    | [] => none
    | c :: rest =>
      if c = '"' then
        (parseStringBody rest).map fun p => (Json.str (String.mk p.1), p.2)
      else if c = '{' then
        match skipWs rest with
        | [] => none
        | d :: rest1 =>
          if d = '}' then some (Json.obj [], rest1)
          else (parseMems fuel (d :: rest1)).map fun p => (Json.obj p.1, p.2)
      else if c = '[' then
        match skipWs rest with
        | [] => none
        | d :: rest1 =>
          if d = ']' then some (Json.arr [], rest1)
          else (parseElems fuel (d :: rest1)).map fun p => (Json.arr p.1, p.2)
      else if List.isPrefixOf ['n', 'u', 'l', 'l'] (c :: rest) then
        some (Json.null, (c :: rest).drop 4)
      else if List.isPrefixOf ['t', 'r', 'u', 'e'] (c :: rest) then
        some (Json.bool true, (c :: rest).drop 4)
      else if List.isPrefixOf ['f', 'a', 'l', 's', 'e'] (c :: rest) then
        some (Json.bool false, (c :: rest).drop 5)
      else
        let lit := (c :: rest).takeWhile isNumChar
        if validNumberLit lit then
          some (Json.num (String.mk lit), (c :: rest).dropWhile isNumChar)
        else if List.isPrefixOf ['N', 'a', 'N'] (c :: rest) then
          some (Json.num "NaN", (c :: rest).drop 3)
        else if List.isPrefixOf ['I', 'n', 'f', 'i', 'n', 'i', 't', 'y'] (c :: rest) then
          some (Json.num "Infinity", (c :: rest).drop 8)
        else if List.isPrefixOf ['-', 'I', 'n', 'f', 'i', 'n', 'i', 't', 'y'] (c :: rest) then
          some (Json.num "-Infinity", (c :: rest).drop 9)
        else none

/-- Parse the elements of a non-empty array, after the opening bracket and
any whitespace. -/
def parseElems : Nat → List Char → Option (List Json × List Char)
  | 0, _ => none
  | fuel + 1, input =>
    match parseValue fuel input with
    | none => none
    | some (v, rest) =>
      match skipWs rest with
      | [] => none
      | d :: rest1 =>
        if d = ',' then
          match parseElems fuel rest1 with
          | some (vs, r) => some (v :: vs, r)
          | none => none
        else if d = ']' then some ([v], rest1)
        else none

/-- Parse the members of a non-empty object; the input starts at the first
property name (whitespace already skipped). -/
def parseMems : Nat → List Char → Option (List (String × Json) × List Char)
  | 0, _ => none
  | fuel + 1, input =>
    match input with
    | [] => none
    | c :: rest =>
      if c = '"' then
        match parseStringBody rest with
        | none => none
        | some (kcs, rest1) =>
          match skipWs rest1 with
          | [] => none
          | d :: rest2 =>
            if d = ':' then
              match parseValue fuel rest2 with
              | none => none
              | some (v, rest3) =>
                match skipWs rest3 with
                | [] => none
                | e :: rest4 =>
                  if e = ',' then
                    match parseMems fuel (skipWs rest4) with
                    | some (kvs, r) => some ((String.mk kcs, v) :: kvs, r)
                    | none => none
                  else if e = '}' then some ([(String.mk kcs, v)], rest4)
                  else none
            else none
      else none

end

/-- `json.load`: parse one value and require only whitespace after it. -/
def parseJson (s : String) : Option Json :=
  match parseValue (s.length + 2) s.toList with
  | some (j, rest) => if (skipWs rest).isEmpty then some j else none
  | none => none

/-- Whether a parsed JSON value supports Python's `len()`: `json.load` maps
JSON values to `dict`, `list` and `str` (which have a length) and to `int`,
`float`, `bool` and `None` (on which `len(data)` raises `TypeError`). -/
def pyHasLen : Json → Bool
  | Json.str _ => true
  | Json.arr _ => true
  | Json.obj _ => true
  | _ => false

/-- `MemoryStore.load_memories`: `[]` when the file is missing or fails to
parse (the decode error is caught and reported as a fresh start).  When the
file parses, the success path still runs `len(data)` inside the `try` (for
the loaded-count report) before returning: a parsed dict, list or string is
returned unchanged, while a parsed number, boolean or null raises
`TypeError` at that call, which the broad `except Exception` turns into
`[]` as well. -/
def load_memories (fs : FS) : Json :=
  match fs.file with
  | some s =>
    match parseJson s with
    | some data => if pyHasLen data then data else Json.arr []
    | none => Json.arr []
  | none => Json.arr []

/-! ## Similarity retrieval: `_simple_similarity` and `get_similar_problems` -/

/-- `text.lower()`: per-character lowercasing (ASCII case mapping; Python's
full Unicode case mapping agrees on the ASCII range). -/
def pyLower (s : String) : String := String.mk (s.toList.map Char.toLower)

/-- Helper for `pySplit`: accumulates the current word (reversed) while
walking the text. -/
def splitWsAux (acc : List Char) : List Char → List String
  | [] => if acc.isEmpty then [] else [String.mk acc.reverse]
  | c :: cs =>
    if c.isWhitespace then
      if acc.isEmpty then splitWsAux [] cs
      else String.mk acc.reverse :: splitWsAux [] cs
    else splitWsAux (c :: acc) cs

/-- `text.split()` with no argument: split on runs of whitespace, producing
no empty words. -/
def pySplit (s : String) : List String := splitWsAux [] s.toList

/-- The lowercase whitespace-delimited words of a text, each kept once:
`set(text.lower().split())`, as a deduplicated list (`List.dedup` keeps each
distinct word once). -/
def tokens (s : String) : List String := (pySplit (pyLower s)).dedup

/-- `MemoryStore._simple_similarity`, with Python's float division modelled
exactly: `mkRat i u` is the rational `i / u` (`mkRat_cast_div` below).  Set
cardinalities become lengths of deduplicated lists. -/
def simple_similarity (text1 text2 : String) : ℚ :=
  if text1 = "" ∨ text2 = "" then 0
  else
    let words1 := tokens text1
    let words2 := tokens text2
    if words1 = [] ∨ words2 = [] then 0
    else
      let intersection : ℕ := (words1.filter (fun w => w ∈ words2)).length
      let union : ℕ := ((words1 ++ words2).dedup).length
      if 0 < union then mkRat intersection union else 0

/-- The token set of a text as a genuine finite set, for stating the spec's
formula. -/
def tokenSet (s : String) : Finset String := (pySplit (pyLower s)).toFinset

/-- The similarity score exactly as the spec words it: the Jaccard index
`|tokens(a) ∩ tokens(b)| / |tokens(a) ∪ tokens(b)|` over the lowercase
whitespace-token sets, and 0 when either token set is empty. -/
def jaccardSpec (a b : String) : ℚ :=
  if tokenSet a = ∅ ∨ tokenSet b = ∅ then 0
  else ((tokenSet a ∩ tokenSet b).card : ℚ) / ((tokenSet a ∪ tokenSet b).card : ℚ)

/-- Whether a number literal denotes zero (all mantissa digits are `0`), the
truthiness test Python applies to a number. -/
def numLitIsZero (lit : String) : Bool :=
  ((lit.toList.takeWhile (fun c => c ≠ 'e' ∧ c ≠ 'E')).filter Char.isDigit).all
    (fun c => c = '0')

/-- One iteration of the scan in `get_similar_problems` over a stored record.
`none` marks the iterations where the Python code would raise: a record that
is not a dict has no `.get`, and a truthy non-string `problem_text` reaches
`text2.lower()`.  Otherwise `some none` skips the record and `some (some _)`
keeps it with its score: kept exactly when `parsed_problem` is a non-empty
dict (`parsed and isinstance(parsed, dict)`), its `problem_text` is a truthy
string, and the score exceeds 0.3. -/
def candidateStep (problem_text : String) (memory : Json) :
    Option (Option (Json × ℚ)) :=
  match memory with
  | Json.obj fields =>
    match pyGet fields "parsed_problem" with
    | Json.obj pfields =>
      if pfields.isEmpty then some none
      else
        match pyGetD pfields "problem_text" (Json.str "") with
        | Json.str stored_text =>
          if stored_text ≠ "" then
            let similarity := simple_similarity problem_text stored_text
            if similarity > mkRat 3 10 then some (some (memory, similarity))
            else some none
          else some none
        | Json.null => some none
        | Json.bool b => if b then none else some none
        | Json.num lit => if numLitIsZero lit then some none else none
        | Json.arr xs => if xs.isEmpty then some none else none
        | Json.obj kvs => if kvs.isEmpty then some none else none
    | _ => some none
  | _ => none

/-- The `for memory in self.memories` loop of `get_similar_problems`,
collecting the above-threshold records with their scores in stored order;
`none` when some iteration raises. -/
def scanCandidates (problem_text : String) : List Json → Option (List (Json × ℚ))
  | [] => some []
  | memory :: rest =>
    match candidateStep problem_text memory with
    | none => none
    | some head =>
      match scanCandidates problem_text rest with
      | none => none
      | some tail =>
        match head with
        | some pair => some (pair :: tail)
        | none => some tail

/-- Insert into a list sorted by weakly decreasing score, before the first
strictly smaller score and after every equal one. -/
def insertDesc (x : Json × ℚ) : List (Json × ℚ) → List (Json × ℚ)
  | [] => [x]
  | y :: ys => if x.2 ≥ y.2 then x :: y :: ys else y :: insertDesc x ys

/-- `similar.sort(key=lambda x: x[1], reverse=True)`: the stable descending
sort by score.  (Stable sorts by the same key agree extensionally, so this
insertion sort is the Python sort; its characterizing properties — a
permutation, weakly decreasing scores, equal scores in original order — are
proved below.) -/
def sortDesc : List (Json × ℚ) → List (Json × ℚ)
  | [] => []
  | x :: xs => insertDesc x (sortDesc xs)

/-- `MemoryStore.get_similar_problems` (the spec's `find_similar`): scan the
stored records, keep those scoring strictly above 0.3, sort by descending
score, return the first `limit` records.  `none` marks a Python exception
from a malformed record. -/
def get_similar_problems (mems : List Json) (problem_text : String)
    (limit : Nat := 3) : Option (List Json) :=
  if mems.isEmpty then some []
  else
    match scanCandidates problem_text mems with
    | none => none
    | some similar => some (((sortDesc similar).take limit).map Prod.fst)

/-! ## The solve-button pipeline of `src/app.py` -/

/-- The exception taxonomy of the pipeline: the four stage-scoped agent
errors of spec §4.2/§7, plus the `AttributeError` a malformed stored record
raises inside `get_similar_problems`.  Exceptions propagate to the single
`try/except` of the solve handler unchanged, so the exception itself is the
stage tag. -/
inductive PyExc where
  | parseError (msg : String)
  | solveError (msg : String)
  | verifyError (msg : String)
  | explainError (msg : String)
  | attributeError (msg : String)
  deriving DecidableEq, Repr

/-- Modelled from the spec: the `ParserAgent` output (src/agents/ is not
under src/) — a structured problem with `problem_text` and `topic` fields and
an optional clarification flag (§4.2).  `problem_text` is optional because
`app.py` reads it with `parsed.get("problem_text", raw_input)`. -/
structure Parsed where
  problem_text : Option String
  topic : String
  needs_clarification : Bool
  clarification_reason : String

/-- Modelled from the spec: the `SolverAgent` output — an optional
`llm_solution` (read with `.get` and a default in `app.py`), the retrieved
`{content, score}` context, and a free-form sympy result. -/
structure Solution where
  llm_solution : Option String
  retrieved_context : List (String × ℚ)
  sympy_result : Json

/-- Modelled from the spec: the `VerifierAgent` output
`{is_correct, confidence, issues[]}`. -/
structure Verification where
  is_correct : Bool
  confidence : ℚ
  issues : List String

/-- Modelled from the spec: the four agents as fallible synchronous calls
(src/agents/ is not under src/); an agent either returns its output or raises
its stage-scoped exception.  How they are sequenced is taken from
`src/app.py`, not modelled. -/
structure Agents where
  parse : String → Except PyExc Parsed
  solve : Parsed → Except PyExc Solution
  verify : String → String → Except PyExc Verification
  explain : String → String → Except PyExc String

/-- The full trace of one successful pipeline run. -/
structure Trace where
  parsed : Parsed
  similar : List Json
  solution : Solution
  verification : Verification
  explanation : String

/-- The solve-button handler of `src/app.py`: inside one `try/except`, Parse,
then the advisory memory lookup, then Solve, then Verify, then Explain; the
first exception aborts everything after it and becomes the reported error.
The handler never calls `store_interaction` (records are written only by the
feedback buttons), so the store and the backing file pass through
unchanged. -/
def solveAttempt (ag : Agents) (mems : List Json) (fs : FS) (raw_input : String) :
    Except PyExc Trace × List Json × FS :=
  let result : Except PyExc Trace := do
    let parsed ← ag.parse raw_input
    let similar ←
      match get_similar_problems mems (parsed.problem_text.getD raw_input) 3 with
      | some s => Except.ok s
      | none => Except.error (PyExc.attributeError "malformed stored record")
    let solution ← ag.solve parsed
    let verification ← ag.verify (parsed.problem_text.getD raw_input)
      (solution.llm_solution.getD "No solution generated")
    let explanation ← ag.explain (parsed.problem_text.getD raw_input)
      (solution.llm_solution.getD "No solution available")
    Except.ok ⟨parsed, similar, solution, verification, explanation⟩
  (result, mems, fs)

/-- The dict a feedback button of `src/app.py` passes to
`store_interaction`: the trace payload plus the feedback value; the
"Incorrect" path also includes the user's comment. -/
def feedbackData (raw_input : String) (input_type parsed solution verification : Json)
    (feedback : String) (user_comment : Option String) : List (String × Json) :=
  [("original_input", Json.str raw_input),
   ("input_type", input_type),
   ("parsed_problem", parsed),
   ("solution", solution),
   ("verification", verification),
   ("feedback", Json.str feedback)] ++
  (match user_comment with
   | some c => [("user_comment", Json.str c)]
   | none => [])

/-- The record field at a key, `Json.null` off-dict. -/
def recField (r : Json) (key : String) : Json :=
  match r with
  | Json.obj fields => pyGet fields key
  | _ => Json.null

/-- The stored problem text the scan would score a record by: `some s`
exactly when the record is a dict whose `parsed_problem` is a non-empty dict
with a non-empty string `problem_text`. -/
def storedProblemText (r : Json) : Option String :=
  match r with
  | Json.obj fields =>
    match pyGet fields "parsed_problem" with
    | Json.obj pfields =>
      if pfields.isEmpty then none
      else
        match pyGetD pfields "problem_text" (Json.str "") with
        | Json.str s => if s = "" then none else some s
        | _ => none
    | _ => none
  | _ => none

/-- The similarity score of a record against a query; 0 when the record has
no usable stored text. -/
def recScore (q : String) (r : Json) : ℚ :=
  match storedProblemText r with
  | some s => simple_similarity q s
  | none => 0

/-- Concrete records for the retrieval witnesses. -/
def recW1 : Json :=
  Json.obj [("id", Json.str "w1"),
            ("parsed_problem", Json.obj [("problem_text", Json.str "solve x squared")])]

def recW2 : Json :=
  Json.obj [("id", Json.str "w2"),
            ("parsed_problem", Json.obj [("problem_text", Json.str "solve x squared")])]

/-- The malformed-record shapes C10 lists: the record is a dict whose
`parsed_problem` is missing or not a dict, or whose `problem_text` is absent
or the empty string. -/
def malformedSkipped (r : Json) : Bool :=
  match r with
  | Json.obj fields =>
    match pyGet fields "parsed_problem" with
    | Json.obj pfields =>
      if pfields.isEmpty then true
      else
        match dictGet pfields "problem_text" with
        | none => true
        | some (Json.str s) => s = ""
        | some _ => false
    | _ => true
  | _ => false

/-- Concrete agents for the pipeline witness: the verifier raises, the
other stages succeed. -/
def witnessAgents : Agents :=
  { parse := fun _ => Except.ok ⟨some "solve x", "algebra", false, ""⟩,
    solve := fun _ => Except.ok ⟨some "x = 2", [], Json.null⟩,
    verify := fun _ _ => Except.error (PyExc.verifyError "empty solution"),
    explain := fun _ _ => Except.ok "explanation" }

/-- Append a batch of interactions one after another (each entry is the
oracle id, the timestamp and the data dict of one `store_interaction`). -/
def appendMany (mems : List Json) (fs : FS) :
    List (String × String × List (String × Json)) → List Json × FS
  | [] => (mems, fs)
  | (i, t, d) :: rest =>
    appendMany (store_interaction mems fs i t d).1
      (store_interaction mems fs i t d).2.1 rest

/-! ## Well-formed JSON values, their sizes, and the separator condition
used by the round-trip proof -/

mutual
def wfJson : Json → Bool
  | Json.null => true
  | Json.bool _ => true
  | Json.num lit =>
    validNumberLit lit.toList || lit = "NaN" || lit = "Infinity" || lit = "-Infinity"
  | Json.str _ => true
  | Json.arr xs => wfElems xs
  | Json.obj kvs => wfMems kvs
def wfElems : List Json → Bool
  | [] => true
  | x :: xs => wfJson x && wfElems xs
def wfMems : List (String × Json) → Bool
  | [] => true
  | (_, v) :: kvs => wfJson v && wfMems kvs
end

mutual
def sizeJ : Json → Nat
  | Json.null => 1
  | Json.bool _ => 1
  | Json.num _ => 1
  | Json.str _ => 1
  | Json.arr xs => 1 + sizeElemsJ xs
  | Json.obj kvs => 1 + sizeMemsJ kvs
def sizeElemsJ : List Json → Nat
  | [] => 0
  | x :: xs => 1 + sizeJ x + sizeElemsJ xs
def sizeMemsJ : List (String × Json) → Nat
  | [] => 0
  | (_, v) :: kvs => 1 + sizeJ v + sizeMemsJ kvs
end

def sepOK (rest : List Char) : Prop :=
  ∀ c ∈ rest.head?, isNumChar c = false

/-! ## Theorems: load and append behaviour (C2, C6, C9) -/

/-- C6: `load_memories` returns the empty sequence, not an error, when no
backing file exists; and when the backing file exists but does not parse, it
recovers by returning the empty sequence (prior contents discarded). -/
theorem C6_load_missing_or_corrupt (fs : FS) :
    (fs.file = none → load_memories fs = Json.arr []) ∧
    (∀ s, fs.file = some s → parseJson s = none → load_memories fs = Json.arr []) := by
  constructor
  · intro h
    simp [load_memories, h]
  · intro s hs hp
    simp [load_memories, hs, hp]

/-- C6 witness: a missing file and a concrete unparsable file both load as
the empty sequence. -/
theorem C6_witness :
    load_memories ⟨none, true⟩ = Json.arr [] ∧
    load_memories ⟨some "not json", true⟩ = Json.arr [] :=
  ⟨(C6_load_missing_or_corrupt ⟨none, true⟩).1 rfl,
   (C6_load_missing_or_corrupt ⟨some "not json", true⟩).2 "not json" rfl rfl⟩

/-- C9 counterexample: a backing file holding the bare number `5` parses,
but is NOT returned unchanged — the success path's `len(data)` raises
`TypeError`, the broad handler catches it, and the load yields the empty
sequence instead of the parsed number. -/
theorem C9_counterexample :
    parseJson "5" = some (Json.num "5") ∧
    load_memories ⟨some "5", true⟩ = Json.arr [] ∧
    Json.arr [] ≠ Json.num "5" :=
  ⟨rfl, rfl, fun h => Json.noConfusion h⟩

/-- C9 amended: loading applies no *schema* validation — no check that the
parsed value is a list of record dicts — but the success path is gated by
the `len(data)` call in the loaded-count report: any parsed value that
supports `len` (an object, an array or a string), however un-record-like,
becomes the store's contents unchanged, while a parsed number, boolean or
null raises `TypeError` there and loads as the empty sequence; a parse
failure also yields the empty sequence. -/
theorem C9_no_schema_validation (s : String) :
    (∀ j, parseJson s = some j → pyHasLen j = true →
      load_memories ⟨some s, true⟩ = j) ∧
    (∀ j, parseJson s = some j → pyHasLen j = false →
      load_memories ⟨some s, true⟩ = Json.arr []) ∧
    (parseJson s = none → load_memories ⟨some s, true⟩ = Json.arr []) := by
  refine ⟨?_, ?_, ?_⟩
  · intro j hj hl
    simp [load_memories, hj, hl]
  · intro j hj hl
    simp [load_memories, hj, hl]
  · intro hp
    simp [load_memories, hp]

/-- C9 witness: a JSON object — not a list of records — is loaded unchanged
as the store's contents, while a bare number loads as the empty sequence. -/
theorem C9_witness :
    load_memories ⟨some "\x7b\"a\": 1\x7d", true⟩ = Json.obj [("a", Json.num "1")] ∧
    load_memories ⟨some "5", true⟩ = Json.arr [] :=
  ⟨(C9_no_schema_validation "\x7b\"a\": 1\x7d").1 (Json.obj [("a", Json.num "1")]) rfl rfl,
   (C9_no_schema_validation "5").2.1 (Json.num "5") rfl rfl⟩

/-- C2 counterexample: with unwritable storage the save fails — the backing
file is left untouched — yet `store_interaction` returns exactly the id it
returns on success and nothing else; the caller receives no failure signal
(the `success` flag only feeds a `print`). -/
theorem C2_counterexample :
    (store_interaction [] ⟨none, false⟩ "id-1" "t1" []).2.1.file = none ∧
    (store_interaction [] ⟨none, false⟩ "id-1" "t1" []).2.2 =
      (store_interaction [] ⟨none, true⟩ "id-1" "t1" []).2.2 ∧
    (store_interaction [] ⟨none, false⟩ "id-1" "t1" []).1 =
      [mkMemory "id-1" "t1" []] :=
  ⟨rfl, rfl, rfl⟩

/-- C2 amended: `store_interaction` appends exactly one record to the end of
the in-memory sequence, persists the entire sequence when the storage is
writable, and returns the assigned id; on persistence failure the failure is
only printed — the returned id is indistinguishable from success — while the
in-memory sequence still reflects the append and the backing file is left
unchanged. -/
theorem C2_append_behaviour (mems : List Json) (fs : FS) (newId ts : String)
    (data : List (String × Json)) :
    (store_interaction mems fs newId ts data).1 =
      mems ++ [mkMemory newId ts data] ∧
    (store_interaction mems fs newId ts data).2.2 = newId ∧
    (fs.writable = true →
      (store_interaction mems fs newId ts data).2.1 =
        ⟨some (dumps (Json.arr (mems ++ [mkMemory newId ts data]))), true⟩) ∧
    (fs.writable = false →
      (store_interaction mems fs newId ts data).2.1 = fs) := by
  refine ⟨rfl, rfl, ?_, ?_⟩
  · intro hw
    cases fs
    simp_all [store_interaction, save_memories]
  · intro hw
    simp [store_interaction, save_memories, hw]

/-- C2 witness: the amended behaviour at a concrete writable store and a
concrete unwritable store. -/
theorem C2_append_behaviour_witness :
    (store_interaction [] ⟨none, true⟩ "i" "t" []).1 = [mkMemory "i" "t" []] ∧
    (store_interaction [] ⟨none, false⟩ "i" "t" []).2.1 = (⟨none, false⟩ : FS) :=
  ⟨(C2_append_behaviour [] ⟨none, true⟩ "i" "t" []).1,
   (C2_append_behaviour [] ⟨none, false⟩ "i" "t" []).2.2.2 rfl⟩

/-- C8: invoking `store_interaction` twice for the same completed pipeline
trace (same payload, possibly different feedback value) appends two distinct
records to the end of the store — with distinct ids and identical payload
except `id`, `timestamp` and `feedback` — and leaves the first record (and
everything before it) untouched. -/
theorem C8_two_feedbacks (mems : List Json) (fs : FS)
    (i1 t1 i2 t2 : String) (hid : i1 ≠ i2)
    (raw : String) (ity parsed sol ver : Json) (f1 f2 : String)
    (uc : Option String) :
    let d1 := feedbackData raw ity parsed sol ver f1 uc
    let d2 := feedbackData raw ity parsed sol ver f2 uc
    let m1 := mkMemory i1 t1 d1
    let m2 := mkMemory i2 t2 d2
    let step1 := store_interaction mems fs i1 t1 d1
    let step2 := store_interaction step1.1 step1.2.1 i2 t2 d2
    step2.1 = mems ++ [m1, m2] ∧
    step1.2.2 = i1 ∧ step2.2.2 = i2 ∧
    m1 ≠ m2 ∧
    recField m1 "id" = Json.str i1 ∧
    recField m2 "id" = Json.str i2 ∧
    (∀ k ∈ ["original_input", "input_type", "parsed_problem", "solution",
            "verification", "user_comment"],
      recField m1 k = recField m2 k) := by
  refine ⟨?_, rfl, rfl, ?_, ?_, ?_, ?_⟩
  · simp [store_interaction]
  · intro h
    simp only [mkMemory, Json.obj.injEq, List.cons.injEq, Prod.mk.injEq,
      Json.str.injEq] at h
    exact hid h.1.2
  · rfl
  · rfl
  · intro k hk
    cases uc <;> fin_cases hk <;>
      simp [mkMemory, feedbackData, recField, pyGet, pyGetD, dictGet]

/-- C8 witness: two concrete feedback submissions for one trace. -/
theorem C8_two_feedbacks_witness :
    (store_interaction
        (store_interaction [] ⟨none, true⟩ "id-a" "t1"
          (feedbackData "q" (Json.str "text") (Json.obj []) Json.null
            (Json.obj []) "correct" none)).1
        (store_interaction [] ⟨none, true⟩ "id-a" "t1"
          (feedbackData "q" (Json.str "text") (Json.obj []) Json.null
            (Json.obj []) "correct" none)).2.1
        "id-b" "t2"
        (feedbackData "q" (Json.str "text") (Json.obj []) Json.null
          (Json.obj []) "incorrect" none)).1 =
      [mkMemory "id-a" "t1"
        (feedbackData "q" (Json.str "text") (Json.obj []) Json.null
          (Json.obj []) "correct" none),
       mkMemory "id-b" "t2"
        (feedbackData "q" (Json.str "text") (Json.obj []) Json.null
          (Json.obj []) "incorrect" none)] :=
  (C8_two_feedbacks [] ⟨none, true⟩ "id-a" "t1" "id-b" "t2" (by decide)
    "q" (Json.str "text") (Json.obj []) Json.null (Json.obj [])
    "correct" "incorrect" none).1

/-! ## Lemmas about the similarity scan and the stable descending sort -/

/-- A kept scan entry is the record paired with its score, above threshold. -/
theorem candidateStep_kept {q : String} {r : Json} {p : Json × ℚ}
    (h : candidateStep q r = some (some p)) :
    p = (r, recScore q r) ∧ mkRat 3 10 < recScore q r := by
  cases r with
  | obj fields =>
    simp only [candidateStep] at h
    rcases hpp : pyGet fields "parsed_problem" with _ | b | lit | s | xs | pfields <;>
        rw [hpp] at h <;> try simp at h
    by_cases hemp : pfields.isEmpty <;> simp only [hemp, if_true, if_false] at h
    · simp at h
    · rcases hpt : pyGetD pfields "problem_text" (Json.str "") with _ | b | lit | s | xs | kvs <;>
          rw [hpt] at h
      · simp at h
      · rcases b <;> simp at h
      · by_cases hz : numLitIsZero lit <;> simp [hz] at h
      · by_cases hs : s = ""
        · simp [hs] at h
        · simp only [hs, if_true, if_false, ne_eq, not_false_eq_true] at h
          by_cases hgt : simple_similarity q s > mkRat 3 10
          · simp only [hgt, if_true] at h
            cases h
            refine ⟨?_, ?_⟩ <;>
              simp [recScore, storedProblemText, hpp, hemp, hpt, hs, hgt]
          · simp [hgt] at h
      · by_cases hxs : xs.isEmpty <;> simp [hxs] at h
      · by_cases hkvs : kvs.isEmpty <;> simp [hkvs] at h
  | null => simp [candidateStep] at h
  | bool b => simp [candidateStep] at h
  | num lit => simp [candidateStep] at h
  | str s => simp [candidateStep] at h
  | arr xs => simp [candidateStep] at h

/-- Every pair a successful scan returns is a stored record paired with its
above-threshold score. -/
theorem scanCandidates_mem {q : String} {mems : List Json}
    {pairs : List (Json × ℚ)} (h : scanCandidates q mems = some pairs) :
    ∀ p ∈ pairs, p.1 ∈ mems ∧ p = (p.1, recScore q p.1) ∧
      mkRat 3 10 < recScore q p.1 := by
  induction mems generalizing pairs with
  | nil =>
    simp only [scanCandidates, Option.some.injEq] at h
    subst h
    simp
  | cons memory rest ih =>
    simp only [scanCandidates] at h
    rcases hc : candidateStep q memory with _ | head <;> rw [hc] at h
    · simp at h
    · rcases hs : scanCandidates q rest with _ | tail <;> rw [hs] at h
      · simp at h
      · rcases head with _ | pair
        · simp only [Option.some.injEq] at h
          subst h
          intro p hp
          rcases ih hs p hp with ⟨h1, h2, h3⟩
          exact ⟨List.mem_cons_of_mem _ h1, h2, h3⟩
        · simp only [Option.some.injEq] at h
          subst h
          intro p hp
          rcases List.mem_cons.1 hp with rfl | hp'
          · rcases candidateStep_kept hc with ⟨rfl, hgt⟩
            exact ⟨List.mem_cons_self _ _, rfl, hgt⟩
          · rcases ih hs p hp' with ⟨h1, h2, h3⟩
            exact ⟨List.mem_cons_of_mem _ h1, h2, h3⟩

/-- The records a successful scan keeps form a sublist of the store: the scan
preserves insertion order. -/
theorem scanCandidates_sublist {q : String} {mems : List Json}
    {pairs : List (Json × ℚ)} (h : scanCandidates q mems = some pairs) :
    (pairs.map Prod.fst).Sublist mems := by
  induction mems generalizing pairs with
  | nil =>
    simp only [scanCandidates, Option.some.injEq] at h
    subst h
    simp
  | cons memory rest ih =>
    simp only [scanCandidates] at h
    rcases hc : candidateStep q memory with _ | head <;> rw [hc] at h
    · simp at h
    · rcases hs : scanCandidates q rest with _ | tail <;> rw [hs] at h
      · simp at h
      · rcases head with _ | pair
        · simp only [Option.some.injEq] at h
          subst h
          exact (ih hs).cons memory
        · simp only [Option.some.injEq] at h
          subst h
          rcases candidateStep_kept hc with ⟨rfl, -⟩
          exact (ih hs).cons₂ memory

/-- `insertDesc` is a permutation of consing. -/
theorem insertDesc_perm (x : Json × ℚ) (l : List (Json × ℚ)) :
    List.Perm (insertDesc x l) (x :: l) := by
  induction l with
  | nil => rfl
  | cons y ys ih =>
    simp only [insertDesc]
    split
    · rfl
    · exact (ih.cons y).trans (List.Perm.swap x y ys)

/-- The sorted output of `sortDesc` is a permutation of its input. -/
theorem sortDesc_perm (l : List (Json × ℚ)) : List.Perm (sortDesc l) l := by
  induction l with
  | nil => rfl
  | cons x xs ih => exact (insertDesc_perm x (sortDesc xs)).trans (ih.cons x)

/-- `insertDesc` preserves weakly-descending sortedness of scores. -/
theorem insertDesc_sorted {x : Json × ℚ} {l : List (Json × ℚ)}
    (h : l.Sorted (fun a b => b.2 ≤ a.2)) :
    (insertDesc x l).Sorted (fun a b => b.2 ≤ a.2) := by
  induction l with
  | nil => simp [insertDesc]
  | cons y ys ih =>
    rw [List.sorted_cons] at h
    obtain ⟨hy, hys⟩ := h
    simp only [insertDesc]
    split
    · rename_i hxy
      rw [List.sorted_cons]
      refine ⟨?_, List.sorted_cons.2 ⟨hy, hys⟩⟩
      intro b hb
      rcases List.mem_cons.1 hb with rfl | hb'
      · exact hxy
      · exact le_trans (hy b hb') hxy
    · rename_i hxy
      rw [List.sorted_cons]
      refine ⟨?_, ih hys⟩
      intro b hb
      have hb' := (insertDesc_perm x ys).mem_iff.1 hb
      rcases List.mem_cons.1 hb' with rfl | hb''
      · exact le_of_not_le hxy
      · exact hy b hb''

/-- `sortDesc` sorts by weakly decreasing score. -/
theorem sortDesc_sorted (l : List (Json × ℚ)) :
    (sortDesc l).Sorted (fun a b => b.2 ≤ a.2) := by
  induction l with
  | nil => simp [sortDesc]
  | cons x xs ih => exact insertDesc_sorted ih

/-- Stability of `insertDesc` through the lens of a fixed score: the entries
with any given score keep their relative order (the inserted entry lands in
front only of entries with strictly smaller scores). -/
theorem insertDesc_filter (x : Json × ℚ) (l : List (Json × ℚ)) (c : ℚ) :
    (insertDesc x l).filter (fun p => p.2 = c) =
      if x.2 = c then x :: l.filter (fun p => p.2 = c)
      else l.filter (fun p => p.2 = c) := by
  induction l with
  | nil =>
    by_cases hx : x.2 = c <;> simp [insertDesc, hx]
  | cons y ys ih =>
    simp only [insertDesc]
    split
    · rename_i hxy
      by_cases hx : x.2 = c <;> by_cases hy : y.2 = c <;>
        simp [List.filter_cons, hx, hy]
    · rename_i hxy
      by_cases hx : x.2 = c
      · have hy : ¬ y.2 = c := by
          intro hc
          exact hxy (ge_of_eq (hx.trans hc.symm))
        simp [List.filter_cons, hy, ih, hx]
      · by_cases hy : y.2 = c <;> simp [List.filter_cons, hx, hy, ih]

/-- Stability of `sortDesc`: among entries with equal scores the original
order is preserved (the filtered subsequence at each score is unchanged). -/
theorem sortDesc_filter (l : List (Json × ℚ)) (c : ℚ) :
    (sortDesc l).filter (fun p => p.2 = c) = l.filter (fun p => p.2 = c) := by
  induction l with
  | nil => rfl
  | cons x xs ih =>
    simp only [sortDesc]
    rw [insertDesc_filter]
    by_cases hx : x.2 = c <;> simp [List.filter_cons, hx, ih]

/-! ## The similarity score is the spec's Jaccard index -/

/-- `mkRat` over naturals is the rational division the spec writes. -/
theorem mkRat_cast_div (i u : ℕ) : mkRat i u = (i : ℚ) / (u : ℚ) := by
  rw [Rat.mkRat_eq_divInt, Rat.divInt_eq_div]
  push_cast
  ring

/-- Deduplication does not change the finite set a list describes. -/
theorem dedup_toFinset {α : Type*} [DecidableEq α] (l : List α) :
    l.dedup.toFinset = l.toFinset := by
  ext x
  simp [List.mem_toFinset, List.mem_dedup]

/-- The token list is empty exactly when the token set is. -/
theorem tokens_eq_nil_iff (s : String) : tokens s = [] ↔ tokenSet s = ∅ := by
  unfold tokens tokenSet
  rw [List.dedup_eq_nil, List.toFinset_eq_empty_iff]

/-- The empty text has no tokens. -/
theorem tokenSet_empty : tokenSet "" = ∅ := rfl

/-- The computed similarity is exactly the spec's Jaccard index over the
token sets: the source's double guard (empty text, then empty word list) and
its generic division guard collapse to the spec's empty-set rule. -/
theorem simple_similarity_eq_jaccardSpec (a b : String) :
    simple_similarity a b = jaccardSpec a b := by
  by_cases hempty : tokenSet a = ∅ ∨ tokenSet b = ∅
  · have hrhs : jaccardSpec a b = 0 := by rw [jaccardSpec, if_pos hempty]
    rw [hrhs, simple_similarity]
    by_cases hstr : a = "" ∨ b = ""
    · rw [if_pos hstr]
    · rw [if_neg hstr]
      have h0 : tokens a = [] ∨ tokens b = [] := by
        rcases hempty with h | h
        · exact Or.inl ((tokens_eq_nil_iff a).2 h)
        · exact Or.inr ((tokens_eq_nil_iff b).2 h)
      rw [if_pos h0]
  · push_neg at hempty
    obtain ⟨ha, hb⟩ := hempty
    have hsa : a ≠ "" := by
      intro h
      exact ha (h ▸ tokenSet_empty)
    have hsb : b ≠ "" := by
      intro h
      exact hb (h ▸ tokenSet_empty)
    have hta : tokens a ≠ [] := fun h => ha ((tokens_eq_nil_iff a).1 h)
    have htb : tokens b ≠ [] := fun h => hb ((tokens_eq_nil_iff b).1 h)
    have hinter : ((tokens a).filter (fun w => w ∈ tokens b)).length =
        (tokenSet a ∩ tokenSet b).card := by
      have hnd : ((tokens a).filter (fun w => w ∈ tokens b)).Nodup :=
        (List.nodup_dedup _).filter _
      rw [← List.toFinset_card_of_nodup hnd]
      congr 1
      ext x
      simp [List.mem_toFinset, List.mem_filter, tokens, tokenSet,
        List.mem_dedup, Finset.mem_inter]
    have hunion : ((tokens a ++ tokens b).dedup).length =
        (tokenSet a ∪ tokenSet b).card := by
      rw [← List.card_toFinset]
      congr 1
      ext x
      simp [tokens, tokenSet, List.mem_dedup, List.mem_append]
    have hupos : 0 < ((tokens a ++ tokens b).dedup).length := by
      rcases List.exists_mem_of_ne_nil _ hta with ⟨w, hw⟩
      have hmem : w ∈ (tokens a ++ tokens b).dedup := by
        rw [List.mem_dedup, List.mem_append]
        exact Or.inl hw
      exact List.length_pos.2 (fun hnil => by simp [hnil] at hmem)
    simp only [simple_similarity, jaccardSpec]
    rw [if_neg (by simp [hsa, hsb])]
    rw [if_neg (by push_neg; exact ⟨hta, htb⟩)]
    rw [if_pos hupos]
    rw [if_neg (by push_neg; exact ⟨ha, hb⟩)]
    rw [hinter, hunion, mkRat_cast_div]

/-- The 0.3 threshold as the rational 3/10. -/
theorem thr_eq_div : mkRat 3 10 = (3 : ℚ) / 10 := by
  rw [Rat.mkRat_eq_divInt, Rat.divInt_eq_div]
  norm_num

/-- Every record returned by `get_similar_problems` has a usable stored
problem text scoring strictly above the 0.3 threshold against the query. -/
theorem get_similar_scores_kept (mems : List Json) (q : String) (limit : Nat)
    (res : List Json) (h : get_similar_problems mems q limit = some res) :
    ∀ r ∈ res, ∃ s, storedProblemText r = some s ∧
        mkRat 3 10 < simple_similarity q s := by
  rw [get_similar_problems] at h
  by_cases hemp : mems.isEmpty
  · rw [if_pos hemp, Option.some.injEq] at h
    subst h
    simp
  · rw [if_neg hemp] at h
    rcases hscan : scanCandidates q mems with _ | pairs <;> rw [hscan] at h
    · simp at h
    · rw [Option.some.injEq] at h
      subst h
      have hmem := scanCandidates_mem hscan
      intro r hr
      rcases List.mem_map.1 hr with ⟨p, hp, rfl⟩
      have hp2 : p ∈ pairs :=
        (sortDesc_perm pairs).mem_iff.1 ((List.take_sublist _ _).mem hp)
      rcases hmem p hp2 with ⟨-, hpe, hgt⟩
      rcases hst : storedProblemText p.1 with _ | s
      · rw [recScore, hst] at hgt
        rw [thr_eq_div] at hgt
        norm_num at hgt
      · refine ⟨s, rfl, ?_⟩
        rw [recScore, hst] at hgt
        exact hgt

/-- C1: for every query and limit, `get_similar_problems` returns at most
`limit` records; every returned record's stored `parsed_problem.problem_text`
scores strictly above 0.3 against the query; results are ordered by
descending similarity score; and the score is exactly the Jaccard index over
the lowercase whitespace-token sets, 0 when either token set is empty. -/
theorem C1_find_similar_contract (mems : List Json) (q : String) (limit : Nat)
    (res : List Json) (h : get_similar_problems mems q limit = some res) :
    res.length ≤ limit ∧
    (∀ r ∈ res, ∃ s, storedProblemText r = some s ∧
        mkRat 3 10 < simple_similarity q s) ∧
    (res.map (recScore q)).Sorted (fun x y => y ≤ x) ∧
    (∀ t1 t2, simple_similarity t1 t2 = jaccardSpec t1 t2) ∧
    mkRat 3 10 = (3 : ℚ) / 10 := by
  have hkept := get_similar_scores_kept mems q limit res h
  rw [get_similar_problems] at h
  by_cases hemp : mems.isEmpty
  · rw [if_pos hemp, Option.some.injEq] at h
    subst h
    exact ⟨by simp, hkept, by simp, simple_similarity_eq_jaccardSpec, thr_eq_div⟩
  · rw [if_neg hemp] at h
    rcases hscan : scanCandidates q mems with _ | pairs <;> rw [hscan] at h
    · simp at h
    · rw [Option.some.injEq] at h
      subst h
      have hmem := scanCandidates_mem hscan
      refine ⟨?_, hkept, ?_, simple_similarity_eq_jaccardSpec, thr_eq_div⟩
      · simp only [List.length_map, List.length_take]
        omega
      · have htake : ((sortDesc pairs).take limit).Pairwise
            (fun x y : Json × ℚ => y.2 ≤ x.2) :=
          (sortDesc_sorted pairs).sublist (List.take_sublist _ _)
        rw [List.map_map]
        rw [List.Sorted, List.pairwise_map]
        refine htake.imp_of_mem ?_
        intro x y hx hy hle
        have hx2 : x ∈ pairs :=
          (sortDesc_perm pairs).mem_iff.1 ((List.take_sublist _ _).mem hx)
        have hy2 : y ∈ pairs :=
          (sortDesc_perm pairs).mem_iff.1 ((List.take_sublist _ _).mem hy)
        have hxe : x.2 = recScore q x.1 := congrArg Prod.snd (hmem x hx2).2.1
        have hye : y.2 = recScore q y.1 := congrArg Prod.snd (hmem y hy2).2.1
        simp only [Function.comp]
        rw [← hxe, ← hye]
        exact hle

/-- C1 witness: a concrete store and query with `limit = 1`. -/
theorem C1_witness :
    (([recW1] : List Json).length ≤ 1 ∧
    (∀ r ∈ ([recW1] : List Json), ∃ s, storedProblemText r = some s ∧
        mkRat 3 10 < simple_similarity "solve x squared" s) ∧
    (([recW1] : List Json).map (recScore "solve x squared")).Sorted
      (fun x y => y ≤ x) ∧
    (∀ t1 t2, simple_similarity t1 t2 = jaccardSpec t1 t2) ∧
    mkRat 3 10 = (3 : ℚ) / 10) :=
  C1_find_similar_contract [recW1, recW2] "solve x squared" 1 [recW1] rfl

/-- C3 counterexample: two records inserted in the order `recW1`, `recW2`
score equally against the query, yet the result lists the EARLIER-inserted
`recW1` first — the most recently inserted record does not win the tie. -/
theorem C3_counterexample :
    get_similar_problems [recW1, recW2] "solve x squared" 3 =
      some [recW1, recW2] ∧
    recScore "solve x squared" recW1 = recScore "solve x squared" recW2 ∧
    recW1 ≠ recW2 := by
  refine ⟨rfl, rfl, ?_⟩
  intro hcon
  simp [recW1, recW2] at hcon

/-- C3 amended: among records with equal similarity scores the EARLIEST
inserted wins the tie, because iteration is in stored order and the sort over
scores is stable: for every score `c`, the result's records scoring `c` are a
prefix of the kept candidates scoring `c`, which in turn appear in stored
order (a sublist of the store). -/
theorem C3_stable_tie_break (mems : List Json) (q : String) (limit : Nat)
    (res : List Json) (pairs : List (Json × ℚ))
    (h : get_similar_problems mems q limit = some res)
    (hscan : scanCandidates q mems = some pairs) (c : ℚ) :
    List.IsPrefix (res.filter (fun r => recScore q r = c))
      ((pairs.map Prod.fst).filter (fun r => recScore q r = c)) ∧
    List.Sublist (pairs.map Prod.fst) mems := by
  refine ⟨?_, scanCandidates_sublist hscan⟩
  have hmem := scanCandidates_mem hscan
  rw [get_similar_problems] at h
  by_cases hemp : mems.isEmpty
  · rw [if_pos hemp, Option.some.injEq] at h
    subst h
    have : mems = [] := List.isEmpty_iff.1 hemp
    subst this
    simp only [scanCandidates, Option.some.injEq] at hscan
    subst hscan
    simp
  · rw [if_neg hemp, hscan, Option.some.injEq] at h
    subst h
    -- exchange filter and map on both sides
    have hxchgL :
        (((sortDesc pairs).take limit).map Prod.fst).filter
            (fun r => recScore q r = c) =
          (((sortDesc pairs).take limit).filter (fun p => p.2 = c)).map
            Prod.fst := by
      rw [List.filter_map]
      congr 1
      apply List.filter_congr
      intro p hp
      have hp2 : p ∈ pairs :=
        (sortDesc_perm pairs).mem_iff.1 ((List.take_sublist _ _).mem hp)
      have hpe : p.2 = recScore q p.1 := congrArg Prod.snd (hmem p hp2).2.1
      simp [Function.comp, hpe]
    have hxchgR :
        (pairs.map Prod.fst).filter (fun r => recScore q r = c) =
          (pairs.filter (fun p => p.2 = c)).map Prod.fst := by
      rw [List.filter_map]
      congr 1
      apply List.filter_congr
      intro p hp
      have hpe : p.2 = recScore q p.1 := congrArg Prod.snd (hmem p hp).2.1
      simp [Function.comp, hpe]
    rw [hxchgL, hxchgR]
    refine List.IsPrefix.map Prod.fst ?_
    rw [← sortDesc_filter pairs c]
    refine ⟨((sortDesc pairs).drop limit).filter (fun p => p.2 = c), ?_⟩
    rw [← List.filter_append, List.take_append_drop]

/-- C3 witness: the tie-break at the concrete equal-scoring store. -/
theorem C3_stable_tie_break_witness :
    List.IsPrefix
      (([recW1] : List Json).filter
        (fun r => recScore "solve x squared" r =
          simple_similarity "solve x squared" "solve x squared"))
      ((([(recW1, simple_similarity "solve x squared" "solve x squared"),
          (recW2, simple_similarity "solve x squared" "solve x squared")].map
            Prod.fst)).filter
        (fun r => recScore "solve x squared" r =
          simple_similarity "solve x squared" "solve x squared")) ∧
    List.Sublist
      ([(recW1, simple_similarity "solve x squared" "solve x squared"),
        (recW2, simple_similarity "solve x squared" "solve x squared")].map
          Prod.fst)
      [recW1, recW2] :=
  C3_stable_tie_break [recW1, recW2] "solve x squared" 1 [recW1]
    [(recW1, simple_similarity "solve x squared" "solve x squared"),
     (recW2, simple_similarity "solve x squared" "solve x squared")]
    rfl rfl (simple_similarity "solve x squared" "solve x squared")

/-- A record malformed in one of the listed ways is skipped by the scan
without raising. -/
theorem malformed_candidateStep {q : String} {r : Json}
    (h : malformedSkipped r = true) : candidateStep q r = some none := by
  cases r with
  | obj fields =>
    simp only [malformedSkipped] at h
    simp only [candidateStep]
    rcases hpp : pyGet fields "parsed_problem" with _ | b | lit | s | xs | pfields <;>
        rw [hpp] at h <;> try rfl
    dsimp only at h ⊢
    by_cases hemp : pfields.isEmpty
    · rw [if_pos hemp]
    · rw [if_neg hemp] at h ⊢
      rcases hpt : dictGet pfields "problem_text" with _ | v <;>
          rw [hpt] at h <;> simp only [pyGetD, hpt, Option.getD]
      · simp
      · rcases v with _ | b | lit | s | xs | kvs
        · simp at h
        · simp at h
        · simp at h
        · simp at h
          simp [h]
        · simp at h
        · simp at h
  | null => simp [malformedSkipped] at h
  | bool b => simp [malformedSkipped] at h
  | num lit => simp [malformedSkipped] at h
  | str s => simp [malformedSkipped] at h
  | arr xs => simp [malformedSkipped] at h

/-- A record the scan scores is not malformed in any of the listed ways. -/
theorem storedProblemText_not_malformed {r : Json} {s : String}
    (h : storedProblemText r = some s) : malformedSkipped r = false := by
  cases r with
  | obj fields =>
    simp only [storedProblemText] at h
    simp only [malformedSkipped]
    rcases hpp : pyGet fields "parsed_problem" with _ | b | lit | t | xs | pfields <;>
        rw [hpp] at h
    · simp at h
    · simp at h
    · simp at h
    · simp at h
    · simp at h
    · dsimp only at h ⊢
      by_cases hemp : pfields.isEmpty
      · rw [if_pos hemp] at h
        simp at h
      · rw [if_neg hemp] at h ⊢
        rcases hpt : dictGet pfields "problem_text" with _ | v <;>
            simp only [pyGetD, hpt, Option.getD] at h
        · simp at h
        · rcases v with _ | b | lit | t2 | xs | kvs
          · simp at h
          · simp at h
          · simp at h
          · dsimp only at h ⊢
            by_cases ht : t2 = ""
            · rw [if_pos ht] at h
              simp at h
            · rw [if_neg ht] at h
              simp [ht]
          · simp at h
          · simp at h
  | null => simp [storedProblemText] at h
  | bool b => simp [storedProblemText] at h
  | num lit => simp [storedProblemText] at h
  | str t => simp [storedProblemText] at h
  | arr xs => simp [storedProblemText] at h

/-- A store of skipped records scans to an empty candidate list without
raising. -/
theorem scanCandidates_all_skipped {q : String} {mems : List Json}
    (h : ∀ r ∈ mems, candidateStep q r = some none) :
    scanCandidates q mems = some [] := by
  induction mems with
  | nil => rfl
  | cons memory rest ih =>
    simp only [scanCandidates]
    rw [h memory (List.mem_cons_self _ _),
      ih (fun r hr => h r (List.mem_cons_of_mem _ hr))]

/-- C10: `get_similar_problems` never raises on records with the listed
malformations — a store of such records yields `some []` (no exception, all
excluded) — and no record with a listed malformation ever appears in any
result, regardless of the query. -/
theorem C10_malformed_records_skipped (q : String) (limit : Nat)
    (mems : List Json) :
    ((∀ r ∈ mems, malformedSkipped r = true) →
      get_similar_problems mems q limit = some []) ∧
    (∀ res, get_similar_problems mems q limit = some res →
      ∀ r ∈ res, malformedSkipped r = false) := by
  constructor
  · intro hall
    rw [get_similar_problems]
    by_cases hemp : mems.isEmpty
    · rw [if_pos hemp]
    · rw [if_neg hemp,
        scanCandidates_all_skipped (fun r hr => malformed_candidateStep (hall r hr))]
      dsimp only
      rw [show sortDesc [] = [] from rfl]
      simp
  · intro res h r hr
    rcases get_similar_scores_kept mems q limit res h r hr with ⟨s, hs, -⟩
    exact storedProblemText_not_malformed hs

/-- C10 witness: five concretely malformed records are all excluded without
an exception, and the well-formed witness record is not malformed. -/
theorem C10_witness :
    (get_similar_problems
      [Json.obj [("id", Json.str "m1")],
       Json.obj [("id", Json.str "m2"), ("parsed_problem", Json.str "oops")],
       Json.obj [("id", Json.str "m3"), ("parsed_problem", Json.obj [])],
       Json.obj [("id", Json.str "m4"),
         ("parsed_problem", Json.obj [("topic", Json.str "algebra")])],
       Json.obj [("id", Json.str "m5"),
         ("parsed_problem", Json.obj [("problem_text", Json.str "")])]]
      "solve x" 3 = some []) ∧
    (∀ r ∈ ([recW1] : List Json), malformedSkipped r = false) :=
  ⟨(C10_malformed_records_skipped "solve x" 3 _).1 (by decide),
   (C10_malformed_records_skipped "solve x squared" 1 [recW1, recW2]).2 [recW1]
     rfl⟩

/-- C4: when any pipeline stage raises — Parse, Solve, Verify (the claim's
focus) or Explain — the solve handler halts at that stage, no subsequent
stage function is ever invoked (the conclusion holds for EVERY choice of the
later stages), the reported error is the stage's own tagged exception, and no
record is written: the store and the backing file come back unchanged, so
the CaseStore size is unchanged. -/
theorem C4_halt_on_stage_failure (ag : Agents) (mems : List Json) (fs : FS)
    (raw : String) :
    (∀ msg, ag.parse raw = Except.error (PyExc.parseError msg) →
      ∀ sv vf ex, solveAttempt ⟨ag.parse, sv, vf, ex⟩ mems fs raw =
        (Except.error (PyExc.parseError msg), mems, fs)) ∧
    (∀ parsed sim msg, ag.parse raw = Except.ok parsed →
      get_similar_problems mems (parsed.problem_text.getD raw) 3 = some sim →
      ag.solve parsed = Except.error (PyExc.solveError msg) →
      ∀ vf ex, solveAttempt ⟨ag.parse, ag.solve, vf, ex⟩ mems fs raw =
        (Except.error (PyExc.solveError msg), mems, fs)) ∧
    (∀ parsed sim sol msg, ag.parse raw = Except.ok parsed →
      get_similar_problems mems (parsed.problem_text.getD raw) 3 = some sim →
      ag.solve parsed = Except.ok sol →
      ag.verify (parsed.problem_text.getD raw)
          (sol.llm_solution.getD "No solution generated") =
        Except.error (PyExc.verifyError msg) →
      ∀ ex, solveAttempt ⟨ag.parse, ag.solve, ag.verify, ex⟩ mems fs raw =
        (Except.error (PyExc.verifyError msg), mems, fs)) ∧
    (∀ parsed sim sol vrf msg, ag.parse raw = Except.ok parsed →
      get_similar_problems mems (parsed.problem_text.getD raw) 3 = some sim →
      ag.solve parsed = Except.ok sol →
      ag.verify (parsed.problem_text.getD raw)
          (sol.llm_solution.getD "No solution generated") = Except.ok vrf →
      ag.explain (parsed.problem_text.getD raw)
          (sol.llm_solution.getD "No solution available") =
        Except.error (PyExc.explainError msg) →
      solveAttempt ag mems fs raw =
        (Except.error (PyExc.explainError msg), mems, fs)) := by
  refine ⟨?_, ?_, ?_, ?_⟩
  · intro msg hp sv vf ex
    simp [solveAttempt, hp, Bind.bind, Except.bind]
  · intro parsed sim msg hp hsim hs vf ex
    simp [solveAttempt, hp, hsim, hs, Bind.bind, Except.bind]
  · intro parsed sim sol msg hp hsim hs hv ex
    simp [solveAttempt, hp, hsim, hs, hv, Bind.bind, Except.bind]
  · intro parsed sim sol vrf msg hp hsim hs hv he
    simp [solveAttempt, hp, hsim, hs, hv, he, Bind.bind, Except.bind]

/-- C4 witness: with a failing verifier the run reports the verify-tagged
error and leaves the store and file untouched. -/
theorem C4_witness :
    solveAttempt witnessAgents [] ⟨none, true⟩ "solve x" =
      (Except.error (PyExc.verifyError "empty solution"), [], ⟨none, true⟩) :=
  (C4_halt_on_stage_failure witnessAgents [] ⟨none, true⟩ "solve x").2.2.1
    ⟨some "solve x", "algebra", false, ""⟩ [] ⟨some "x = 2", [], Json.null⟩
    "empty solution" rfl rfl rfl rfl witnessAgents.explain

/-- Appending never changes whether the storage is writable. -/
theorem store_interaction_writable (mems : List Json) (fs : FS)
    (i t : String) (d : List (String × Json)) :
    (store_interaction mems fs i t d).2.1.writable = fs.writable := by
  by_cases hw : fs.writable <;> simp [store_interaction, save_memories, hw]

/-- Neither does appending a whole batch. -/
theorem appendMany_writable (batch : List (String × String × List (String × Json)))
    (mems : List Json) (fs : FS) :
    (appendMany mems fs batch).2.writable = fs.writable := by
  induction batch generalizing mems fs with
  | nil => rfl
  | cons hd rest ih =>
    obtain ⟨i, t, d⟩ := hd
    rw [appendMany, ih, store_interaction_writable]

/-- C7: after appending any N records, `clear_memories` replaces the stored
sequence by the empty one and persists it (writing the empty JSON list and
returning success on writable storage), so the store has size 0 and a
subsequent load also yields the empty sequence. -/
theorem C7_reset (mems0 : List Json) (fs0 : FS)
    (batch : List (String × String × List (String × Json)))
    (hw : fs0.writable = true) :
    (clear_memories (appendMany mems0 fs0 batch).2).1 = [] ∧
    (clear_memories (appendMany mems0 fs0 batch).2).2.1.file =
      some (dumps (Json.arr [])) ∧
    (clear_memories (appendMany mems0 fs0 batch).2).2.2 = true ∧
    load_memories (clear_memories (appendMany mems0 fs0 batch).2).2.1 =
      Json.arr [] := by
  have hwr : (appendMany mems0 fs0 batch).2.writable = true :=
    (appendMany_writable batch mems0 fs0).trans hw
  refine ⟨rfl, ?_, ?_, ?_⟩
  · simp [clear_memories, save_memories, hwr]
  · simp [clear_memories, save_memories, hwr]
  · simp only [clear_memories, save_memories, hwr, if_true, if_pos]
    rw [load_memories]
    simp only []
    rw [show parseJson (dumps (Json.arr [])) = some (Json.arr []) from rfl]
    rfl

/-- C7 witness: two concrete appends followed by a reset and a reload. -/
theorem C7_reset_witness :
    (clear_memories (appendMany [] ⟨none, true⟩
        [("i1", "t1", []), ("i2", "t2", [])]).2).1 = [] ∧
    load_memories (clear_memories (appendMany [] ⟨none, true⟩
        [("i1", "t1", []), ("i2", "t2", [])]).2).2.1 = Json.arr [] :=
  ⟨(C7_reset [] ⟨none, true⟩ [("i1", "t1", []), ("i2", "t2", [])] rfl).1,
   (C7_reset [] ⟨none, true⟩ [("i1", "t1", []), ("i2", "t2", [])] rfl).2.2.2⟩

theorem skipWs_of_ws_run {ws : List Char} (h : ∀ c ∈ ws, isJsonWs c = true)
    (s : List Char) : skipWs (ws ++ s) = skipWs s :=
  List.dropWhile_append_of_pos h

theorem indentChars_ws (lvl : Nat) : ∀ c ∈ indentChars lvl, isJsonWs c = true := by
  intro c hc
  rw [indentChars] at hc
  rw [List.eq_of_mem_replicate hc]
  rfl

theorem skipWs_cons_not_ws {c : Char} (h : isJsonWs c = false) (s : List Char) :
    skipWs (c :: s) = c :: s := by
  unfold skipWs
  simp [List.dropWhile_cons, h]

theorem skipWs_newline (s : List Char) : skipWs ('\n' :: s) = skipWs s := by
  unfold skipWs
  rw [List.dropWhile_cons, if_pos (by decide : isJsonWs '\n' = true)]

theorem parseValue_ws_run {ws : List Char} (h : ∀ c ∈ ws, isJsonWs c = true)
    (fuel : Nat) (s : List Char) :
    parseValue fuel (ws ++ s) = parseValue fuel s := by
  cases fuel with
  | zero => rfl
  | succ fuel => simp only [parseValue, skipWs_of_ws_run h]

theorem numChar_not_ws {c : Char} (h : isNumChar c = true) : isJsonWs c = false := by
  by_contra hw
  rw [Bool.not_eq_false, isJsonWs] at hw
  simp only [Bool.or_eq_true, decide_eq_true_eq] at hw
  rcases hw with ((rfl | rfl) | rfl) | rfl <;> exact absurd h (by decide)

theorem numChar_ne {c d : Char} (h : isNumChar c = true)
    (hd : isNumChar d = false) : c ≠ d := by
  intro he
  rw [he, hd] at h
  exact Bool.false_ne_true h

theorem hexVal_hexDigit {m : Nat} (h : m < 16) : hexVal (hexDigit m) = some m := by
  interval_cases m <;> decide

theorem parseStringBody_escape (cs rest : List Char) :
    parseStringBody (escapeList cs ++ '"' :: rest) = some (cs, rest) := by
  induction cs with
  | nil =>
    rw [show escapeList [] = [] from rfl, List.nil_append, parseStringBody.eq_def]
    simp
  | cons c cs ih =>
    show parseStringBody ((escapeChar c ++ escapeList cs) ++ '"' :: rest) = _
    rw [List.append_assoc]
    by_cases h1 : c = '"'
    · subst h1
      rw [show escapeChar '"' = ['\\', '"'] from rfl, List.cons_append,
        List.cons_append, List.nil_append, parseStringBody.eq_def]
      simp [simpleUnescape, ih]
    · by_cases h2 : c = '\\'
      · subst h2
        rw [show escapeChar '\\' = ['\\', '\\'] from rfl, List.cons_append,
          List.cons_append, List.nil_append, parseStringBody.eq_def]
        simp [simpleUnescape, ih]
      · by_cases h3 : c = Char.ofNat 8
        · subst h3
          rw [show escapeChar (Char.ofNat 8) = ['\\', 'b'] from rfl,
            List.cons_append, List.cons_append, List.nil_append,
            parseStringBody.eq_def]
          simp [simpleUnescape, ih]
        · by_cases h4 : c = Char.ofNat 9
          · subst h4
            rw [show escapeChar (Char.ofNat 9) = ['\\', 't'] from rfl,
              List.cons_append, List.cons_append, List.nil_append,
              parseStringBody.eq_def]
            simp [simpleUnescape, ih]
          · by_cases h5 : c = Char.ofNat 10
            · subst h5
              rw [show escapeChar (Char.ofNat 10) = ['\\', 'n'] from rfl,
                List.cons_append, List.cons_append, List.nil_append,
                parseStringBody.eq_def]
              simp [simpleUnescape, ih]
            · by_cases h6 : c = Char.ofNat 12
              · subst h6
                rw [show escapeChar (Char.ofNat 12) = ['\\', 'f'] from rfl,
                  List.cons_append, List.cons_append, List.nil_append,
                  parseStringBody.eq_def]
                simp [simpleUnescape, ih]
              · by_cases h7 : c = Char.ofNat 13
                · subst h7
                  rw [show escapeChar (Char.ofNat 13) = ['\\', 'r'] from rfl,
                    List.cons_append, List.cons_append, List.nil_append,
                    parseStringBody.eq_def]
                  simp [simpleUnescape, ih]
                · by_cases hlt : c.toNat < 32
                  · have e1 : escapeChar c =
                        ['\\', 'u', '0', '0', hexDigit (c.toNat / 16),
                          hexDigit (c.toNat % 16)] := by
                      simp [escapeChar, h1, h2, h3, h4, h5, h6, h7, hlt]
                    rw [e1]
                    have hv1 : hexVal (hexDigit (c.toNat / 16)) =
                        some (c.toNat / 16) := hexVal_hexDigit (by omega)
                    have hv2 : hexVal (hexDigit (c.toNat % 16)) =
                        some (c.toNat % 16) := hexVal_hexDigit (by omega)
                    simp only [List.cons_append, List.nil_append]
                    rw [parseStringBody.eq_def]
                    simp only [show hexVal '0' = some 0 from rfl, hv1, hv2]
                    norm_num
                    have harith : 16 * (c.toNat / 16) + c.toNat % 16 =
                        c.toNat := by omega
                    rw [harith, ih, Char.ofNat_toNat,
                      if_neg (show ¬(55296 ≤ c.toNat ∧ c.toNat < 57344) by omega)]
                    simp
                  · have e1 : escapeChar c = [c] := by
                      simp [escapeChar, h1, h2, h3, h4, h5, h6, h7, hlt]
                    rw [e1, List.cons_append, List.nil_append,
                      parseStringBody.eq_def]
                    simp [h1, h2, hlt, ih]

theorem digit_isNumChar {c : Char} (h : c.isDigit = true) : isNumChar c = true := by
  simp [isNumChar, h]

theorem digits1_decomp {cs r : List Char} (h : digits1 cs = some r) :
    ∃ pre, cs = pre ++ r ∧ ∀ c ∈ pre, isNumChar c = true := by
  cases cs with
  | nil => simp [digits1] at h
  | cons c rest =>
    rw [digits1.eq_def] at h
    dsimp only at h
    by_cases hd : c.isDigit
    · rw [if_pos hd] at h
      injection h with h
      refine ⟨c :: rest.takeWhile Char.isDigit, ?_, ?_⟩
      · rw [← h, List.cons_append, List.takeWhile_append_dropWhile]
      · intro x hx
        rcases List.mem_cons.1 hx with rfl | hx'
        · exact digit_isNumChar hd
        · exact digit_isNumChar (List.mem_takeWhile_imp hx')
    · rw [if_neg hd] at h
      cases h

theorem intPart_decomp {cs r : List Char} (h : intPart cs = some r) :
    ∃ pre, cs = pre ++ r ∧ ∀ c ∈ pre, isNumChar c = true := by
  cases cs with
  | nil => simp [intPart] at h
  | cons c rest =>
    rw [intPart.eq_def] at h
    dsimp only at h
    by_cases h0 : c = '0'
    · rw [if_pos h0] at h
      injection h with h
      exact ⟨[c], by rw [← h]; rfl, by intro x hx; simp at hx; subst hx; subst h0; decide⟩
    · rw [if_neg h0] at h
      by_cases hd : c.isDigit
      · rw [if_pos hd] at h
        injection h with h
        refine ⟨c :: rest.takeWhile Char.isDigit, ?_, ?_⟩
        · rw [← h, List.cons_append, List.takeWhile_append_dropWhile]
        · intro x hx
          rcases List.mem_cons.1 hx with rfl | hx'
          · exact digit_isNumChar hd
          · exact digit_isNumChar (List.mem_takeWhile_imp hx')
      · rw [if_neg hd] at h
        cases h

theorem fracPart_decomp {cs r : List Char} (h : fracPart cs = some r) :
    ∃ pre, cs = pre ++ r ∧ ∀ c ∈ pre, isNumChar c = true := by
  cases cs with
  | nil =>
    rw [fracPart.eq_def] at h
    dsimp only at h
    injection h with h
    exact ⟨[], by rw [← h]; rfl, by simp⟩
  | cons c rest =>
    rw [fracPart.eq_def] at h
    dsimp only at h
    by_cases hdot : c = '.'
    · rw [if_pos hdot] at h
      subst hdot
      rcases digits1_decomp h with ⟨pre, hpre, hall⟩
      refine ⟨'.' :: pre, by rw [List.cons_append, ← hpre], ?_⟩
      intro x hx
      rcases List.mem_cons.1 hx with rfl | hx'
      · decide
      · exact hall x hx'
    · rw [if_neg hdot] at h
      injection h with h
      exact ⟨[], by rw [← h]; rfl, by simp⟩

theorem expPart_decomp {cs r : List Char} (h : expPart cs = some r) :
    ∃ pre, cs = pre ++ r ∧ ∀ c ∈ pre, isNumChar c = true := by
  cases cs with
  | nil =>
    rw [expPart.eq_def] at h
    dsimp only at h
    injection h with h
    exact ⟨[], by rw [← h]; rfl, by simp⟩
  | cons c rest =>
    rw [expPart.eq_def] at h
    dsimp only at h
    by_cases he : c = 'e' ∨ c = 'E'
    · rw [if_pos he] at h
      cases rest with
      | nil => cases h
      | cons s rest1 =>
        dsimp only at h
        by_cases hs : s = '+' ∨ s = '-'
        · rw [if_pos hs] at h
          rcases digits1_decomp h with ⟨pre, hpre, hall⟩
          refine ⟨c :: s :: pre, by rw [List.cons_append, List.cons_append, ← hpre], ?_⟩
          intro x hx
          rcases List.mem_cons.1 hx with rfl | hx'
          · rcases he with rfl | rfl <;> decide
          · rcases List.mem_cons.1 hx' with rfl | hx''
            · rcases hs with rfl | rfl <;> decide
            · exact hall x hx''
        · rw [if_neg hs] at h
          rcases digits1_decomp h with ⟨pre, hpre, hall⟩
          refine ⟨c :: pre, ?_, ?_⟩
          · rw [List.cons_append, ← hpre]
          · intro x hx
            rcases List.mem_cons.1 hx with rfl | hx'
            · rcases he with rfl | rfl <;> decide
            · exact hall x hx'
    · rw [if_neg he] at h
      injection h with h
      exact ⟨[], by rw [← h]; rfl, by simp⟩

theorem numBody_all {body r1 r2 : List Char}
    (h1 : intPart body = some r1) (h2 : fracPart r1 = some r2)
    (h3 : expPart r2 = some []) : ∀ c ∈ body, isNumChar c = true := by
  rcases intPart_decomp h1 with ⟨p1, hp1, ha1⟩
  rcases fracPart_decomp h2 with ⟨p2, hp2, ha2⟩
  rcases expPart_decomp h3 with ⟨p3, hp3, ha3⟩
  rw [List.append_nil] at hp3
  subst hp3
  subst hp2
  subst hp1
  intro x hx
  rcases List.mem_append.1 hx with hx' | hx'
  · exact ha1 x hx'
  · rcases List.mem_append.1 hx' with hx'' | hx''
    · exact ha2 x hx''
    · exact ha3 x hx''

theorem validNumberLit_chain {body : List Char}
    (h : (match intPart body with
          | none => false
          | some r1 =>
            match fracPart r1 with
            | none => false
            | some r2 =>
              match expPart r2 with
              | none => false
              | some r3 => r3.isEmpty) = true) :
    ∀ c ∈ body, isNumChar c = true := by
  rcases hI : intPart body with _ | r1 <;> rw [hI] at h <;> dsimp only at h
  · cases h
  · rcases hF : fracPart r1 with _ | r2 <;> rw [hF] at h <;> dsimp only at h
    · cases h
    · rcases hE : expPart r2 with _ | r3 <;> rw [hE] at h <;> dsimp only at h
      · cases h
      · cases r3 with
        | nil => exact numBody_all hI hF hE
        | cons a b => cases h

theorem validNumberLit_all {cs : List Char} (h : validNumberLit cs = true) :
    (∀ c ∈ cs, isNumChar c = true) ∧ cs ≠ [] := by
  cases cs with
  | nil => exact absurd h (by decide)
  | cons c0 cs1 =>
    refine ⟨?_, by simp⟩
    rw [validNumberLit.eq_def] at h
    dsimp only at h
    by_cases hneg : c0 = '-'
    · rw [if_pos hneg] at h
      subst hneg
      intro x hx
      rcases List.mem_cons.1 hx with rfl | hx'
      · decide
      · exact validNumberLit_chain h x hx'
    · rw [if_neg hneg] at h
      exact validNumberLit_chain h

theorem takeWhile_munch {lit rest : List Char}
    (hall : ∀ c ∈ lit, isNumChar c = true) (hsep : sepOK rest) :
    (lit ++ rest).takeWhile isNumChar = lit ∧
    (lit ++ rest).dropWhile isNumChar = rest := by
  have htail : rest.takeWhile isNumChar = [] ∧ rest.dropWhile isNumChar = rest := by
    cases rest with
    | nil => exact ⟨rfl, rfl⟩
    | cons r rs =>
      have hr : isNumChar r = false := hsep r (by simp)
      rw [List.takeWhile_cons, List.dropWhile_cons, hr]
      exact ⟨rfl, rfl⟩
  constructor
  · rw [List.takeWhile_append_of_pos hall, htail.1, List.append_nil]
  · rw [List.dropWhile_append_of_pos hall, htail.2]

theorem skipWs_skipWs (t : List Char) : skipWs (skipWs t) = skipWs t := by
  induction t with
  | nil => rfl
  | cons c cs ih =>
    by_cases hc : isJsonWs c
    · unfold skipWs at *
      rw [List.dropWhile_cons, if_pos hc]
      exact ih
    · rw [skipWs_cons_not_ws (Bool.not_eq_true _ ▸ hc),
        skipWs_cons_not_ws (Bool.not_eq_true _ ▸ hc)]

theorem parseValue_skipWs (fuel : Nat) (t : List Char) :
    parseValue fuel (skipWs t) = parseValue fuel t := by
  cases fuel with
  | zero => rfl
  | succ fuel => simp only [parseValue, skipWs_skipWs]

theorem parseElems_skipWs (fuel : Nat) (t : List Char) :
    parseElems fuel (skipWs t) = parseElems fuel t := by
  cases fuel with
  | zero => rfl
  | succ fuel => simp only [parseElems, parseValue_skipWs]

theorem parseElems_newline (fuel : Nat) (s : List Char) :
    parseElems fuel ('\n' :: s) = parseElems fuel s := by
  rw [← parseElems_skipWs fuel ('\n' :: s), skipWs_newline, parseElems_skipWs]

theorem sizeJ_pos (j : Json) : 1 ≤ sizeJ j := by
  cases j <;> simp [sizeJ]

theorem sizeElemsJ_pos {xs : List Json} (h : xs ≠ []) : 1 ≤ sizeElemsJ xs := by
  cases xs with
  | nil => exact absurd rfl h
  | cons x xs => rw [sizeElemsJ]; omega

theorem sizeMemsJ_pos {kvs : List (String × Json)} (h : kvs ≠ []) :
    1 ≤ sizeMemsJ kvs := by
  cases kvs with
  | nil => exact absurd rfl h
  | cons kv kvs => obtain ⟨k, v⟩ := kv; rw [sizeMemsJ]; omega

theorem serializeVal_head (lvl : Nat) (j : Json) (hw : wfJson j = true) :
    ∃ c cs, serializeVal lvl j = c :: cs ∧ isJsonWs c = false ∧
      c ≠ ']' ∧ c ≠ '}' := by
  cases j with
  | null => exact ⟨'n', _, rfl, by decide⟩
  | bool b =>
    cases b
    · exact ⟨'f', _, rfl, by decide⟩
    · exact ⟨'t', _, rfl, by decide⟩
  | str s => exact ⟨'"', _, rfl, by decide⟩
  | arr xs =>
    cases xs with
    | nil => exact ⟨'[', _, rfl, by decide⟩
    | cons x xs => exact ⟨'[', _, rfl, by decide⟩
  | obj kvs =>
    cases kvs with
    | nil => exact ⟨'{', _, rfl, by decide⟩
    | cons kv kvs => exact ⟨'{', _, rfl, by decide⟩
  | num lit =>
    rw [show wfJson (Json.num lit) =
      (validNumberLit lit.toList || lit = "NaN" || lit = "Infinity" ||
        lit = "-Infinity") from rfl] at hw
    simp only [Bool.or_eq_true, decide_eq_true_eq] at hw
    rcases hw with ((hv | hN) | hI) | hIn
    · rcases validNumberLit_all hv with ⟨hall, hne⟩
      rcases hl : lit.toList with _ | ⟨c0, cs1⟩
      · exact absurd hl hne
      · have hc0 : isNumChar c0 = true := by
          apply hall
          rw [hl]
          exact List.mem_cons_self _ _
        exact ⟨c0, cs1,
          by rw [show serializeVal lvl (Json.num lit) = lit.toList from rfl, hl],
          numChar_not_ws hc0, numChar_ne hc0 (by decide),
          numChar_ne hc0 (by decide)⟩
    · subst hN
      exact ⟨'N', _, rfl, by decide⟩
    · subst hI
      exact ⟨'I', _, rfl, by decide⟩
    · subst hIn
      exact ⟨'-', _, rfl, by decide⟩

theorem serializeElems_cons_decomp (lvl : Nat) (x : Json) (xs : List Json) :
    ∃ mid, serializeElems lvl (x :: xs) =
      indentChars (lvl + 1) ++ (serializeVal (lvl + 1) x ++ mid) ∧
      (xs = [] → mid = []) ∧
      (xs ≠ [] → mid = ',' :: '\n' :: serializeElems lvl xs) := by
  cases xs with
  | nil =>
    refine ⟨[], ?_, fun _ => rfl, fun h => absurd rfl h⟩
    rw [show serializeElems lvl [x] =
      indentChars (lvl + 1) ++ serializeVal (lvl + 1) x from rfl, List.append_nil]
  | cons y rest =>
    refine ⟨',' :: '\n' :: serializeElems lvl (y :: rest), ?_,
      fun h => absurd h (List.cons_ne_nil _ _), fun _ => rfl⟩
    rw [show serializeElems lvl (x :: y :: rest) =
      indentChars (lvl + 1) ++ serializeVal (lvl + 1) x ++
        (',' :: '\n' :: serializeElems lvl (y :: rest)) from rfl,
      List.append_assoc]

theorem serializeMems_cons_decomp (lvl : Nat) (k : String) (v : Json)
    (kvs : List (String × Json)) :
    ∃ mid, serializeMems lvl ((k, v) :: kvs) =
      indentChars (lvl + 1) ++ ('"' :: (escapeList k.toList ++
        ('"' :: ':' :: ' ' :: (serializeVal (lvl + 1) v ++ mid)))) ∧
      (kvs = [] → mid = []) ∧
      (kvs ≠ [] → mid = ',' :: '\n' :: serializeMems lvl kvs) := by
  cases kvs with
  | nil =>
    refine ⟨[], ?_, fun _ => rfl, fun h => absurd rfl h⟩
    rw [show serializeMems lvl [(k, v)] =
      indentChars (lvl + 1) ++ escapeString k ++
        (':' :: ' ' :: serializeVal (lvl + 1) v) from rfl]
    rw [escapeString, List.append_assoc, List.append_nil]
    simp [List.append_assoc]
  | cons kv rest =>
    refine ⟨',' :: '\n' :: serializeMems lvl (kv :: rest), ?_,
      fun h => absurd h (List.cons_ne_nil _ _), fun _ => rfl⟩
    rw [show serializeMems lvl ((k, v) :: kv :: rest) =
      indentChars (lvl + 1) ++ escapeString k ++
        (':' :: ' ' :: serializeVal (lvl + 1) v) ++
        (',' :: '\n' :: serializeMems lvl (kv :: rest)) from rfl]
    rw [escapeString]
    simp [List.append_assoc]

theorem roundtrip_fuel (fuel : Nat) :
    (∀ j lvl rest, wfJson j = true → sizeJ j ≤ fuel → sepOK rest →
      parseValue fuel (serializeVal lvl j ++ rest) = some (j, rest) ∧
      sizeJ j ≤ (serializeVal lvl j).length) ∧
    (∀ xs lvl rest, xs ≠ [] → wfElems xs = true → sizeElemsJ xs ≤ fuel →
      parseElems fuel (serializeElems lvl xs ++
        ('\n' :: (indentChars lvl ++ ']' :: rest))) = some (xs, rest) ∧
      sizeElemsJ xs ≤ (serializeElems lvl xs).length) ∧
    (∀ kvs lvl rest, kvs ≠ [] → wfMems kvs = true → sizeMemsJ kvs ≤ fuel →
      parseMems fuel (skipWs (serializeMems lvl kvs ++
        ('\n' :: (indentChars lvl ++ '}' :: rest)))) = some (kvs, rest) ∧
      sizeMemsJ kvs ≤ (serializeMems lvl kvs).length) := by
  induction fuel with
  | zero =>
    refine ⟨?_, ?_, ?_⟩
    · intro j lvl rest _ hsz _
      exact absurd hsz (by have := sizeJ_pos j; omega)
    · intro xs lvl rest hne _ hsz
      exact absurd hsz (by have := sizeElemsJ_pos hne; omega)
    · intro kvs lvl rest hne _ hsz
      exact absurd hsz (by have := sizeMemsJ_pos hne; omega)
  | succ fuel ih =>
    obtain ⟨ihP, ihE, ihM⟩ := ih
    refine ⟨?_, ?_, ?_⟩
    · intro j lvl rest hw hsz hsep
      cases j with
      | null =>
        refine ⟨?_, by
          rw [show serializeVal lvl Json.null = ['n', 'u', 'l', 'l'] from rfl,
            show sizeJ Json.null = 1 from rfl]
          simp⟩
        rw [show serializeVal lvl Json.null = ['n', 'u', 'l', 'l'] from rfl,
          show (['n', 'u', 'l', 'l'] ++ rest : List Char) =
            'n' :: ('u' :: 'l' :: 'l' :: rest) from rfl]
        simp only [parseValue]
        rw [skipWs_cons_not_ws (by decide)]
        simp [List.isPrefixOf]
      | bool b =>
        cases b
        · refine ⟨?_, by
            rw [show serializeVal lvl (Json.bool false) =
              ['f', 'a', 'l', 's', 'e'] from rfl,
              show sizeJ (Json.bool false) = 1 from rfl]
            simp⟩
          rw [show serializeVal lvl (Json.bool false) =
            ['f', 'a', 'l', 's', 'e'] from rfl,
            show (['f', 'a', 'l', 's', 'e'] ++ rest : List Char) =
              'f' :: ('a' :: 'l' :: 's' :: 'e' :: rest) from rfl]
          simp only [parseValue]
          rw [skipWs_cons_not_ws (by decide)]
          simp [List.isPrefixOf]
        · refine ⟨?_, by
            rw [show serializeVal lvl (Json.bool true) =
              ['t', 'r', 'u', 'e'] from rfl,
              show sizeJ (Json.bool true) = 1 from rfl]
            simp⟩
          rw [show serializeVal lvl (Json.bool true) =
            ['t', 'r', 'u', 'e'] from rfl,
            show (['t', 'r', 'u', 'e'] ++ rest : List Char) =
              't' :: ('r' :: 'u' :: 'e' :: rest) from rfl]
          simp only [parseValue]
          rw [skipWs_cons_not_ws (by decide)]
          simp [List.isPrefixOf]
      | num lit =>
        have hwn : validNumberLit lit.toList = true ∨ lit = "NaN" ∨
            lit = "Infinity" ∨ lit = "-Infinity" := by
          rw [show wfJson (Json.num lit) = (validNumberLit lit.toList ||
            lit = "NaN" || lit = "Infinity" || lit = "-Infinity") from rfl] at hw
          simpa [Bool.or_eq_true, or_assoc] using hw
        rcases hwn with hv | rfl | rfl | rfl
        · rcases validNumberLit_all hv with ⟨hall, hne⟩
          rcases hl : lit.toList with _ | ⟨c0, cs1⟩
          · exact absurd hl hne
          refine ⟨?_, by
            rw [show serializeVal lvl (Json.num lit) = lit.toList from rfl, hl,
              show sizeJ (Json.num lit) = 1 from rfl]
            simp⟩
          have hc0 : isNumChar c0 = true := by
            apply hall
            rw [hl]
            exact List.mem_cons_self _ _
          have hallc : ∀ c ∈ (c0 :: cs1 : List Char), isNumChar c = true := by
            rw [← hl]
            exact hall
          rw [show serializeVal lvl (Json.num lit) = lit.toList from rfl, hl,
            List.cons_append]
          simp only [parseValue]
          rw [skipWs_cons_not_ws (numChar_not_ws hc0)]
          dsimp only
          rw [if_neg (numChar_ne hc0 (by decide))]
          rw [if_neg (numChar_ne hc0 (by decide))]
          rw [if_neg (numChar_ne hc0 (by decide))]
          have hbn : ∀ d : Char, isNumChar d = false → (d == c0) = false := by
            intro d hd
            refine beq_eq_false_iff_ne.mpr ?_
            intro h
            rw [← h] at hc0
            rw [hc0] at hd
            cases hd
          rw [if_neg (by
            rw [show List.isPrefixOf ['n', 'u', 'l', 'l'] (c0 :: (cs1 ++ rest)) =
              (('n' == c0) && List.isPrefixOf ['u', 'l', 'l'] (cs1 ++ rest))
              from rfl, hbn 'n' (by decide)]
            exact Bool.false_ne_true)]
          rw [if_neg (by
            rw [show List.isPrefixOf ['t', 'r', 'u', 'e'] (c0 :: (cs1 ++ rest)) =
              (('t' == c0) && List.isPrefixOf ['r', 'u', 'e'] (cs1 ++ rest))
              from rfl, hbn 't' (by decide)]
            exact Bool.false_ne_true)]
          rw [if_neg (by
            rw [show List.isPrefixOf ['f', 'a', 'l', 's', 'e']
              (c0 :: (cs1 ++ rest)) =
              (('f' == c0) && List.isPrefixOf ['a', 'l', 's', 'e'] (cs1 ++ rest))
              from rfl, hbn 'f' (by decide)]
            exact Bool.false_ne_true)]
          have hmunch := takeWhile_munch hallc hsep
          rw [show (c0 :: (cs1 ++ rest) : List Char) = (c0 :: cs1) ++ rest
            from rfl]
          simp only [hmunch.1, hmunch.2]
          rw [if_pos (hl ▸ hv)]
          rw [← hl, show String.mk lit.toList = lit from rfl]
        · refine ⟨?_, by
            rw [show serializeVal lvl (Json.num "NaN") = ['N', 'a', 'N'] from rfl,
              show sizeJ (Json.num "NaN") = 1 from rfl]
            simp⟩
          rw [show serializeVal lvl (Json.num "NaN") = ['N', 'a', 'N'] from rfl,
            show (['N', 'a', 'N'] ++ rest : List Char) =
              'N' :: ('a' :: 'N' :: rest) from rfl]
          simp only [parseValue]
          rw [skipWs_cons_not_ws (by decide)]
          simp [List.isPrefixOf, show isNumChar 'N' = false from rfl,
            show validNumberLit [] = false from rfl, List.takeWhile]
        · refine ⟨?_, by
            rw [show serializeVal lvl (Json.num "Infinity") =
              ['I', 'n', 'f', 'i', 'n', 'i', 't', 'y'] from rfl,
              show sizeJ (Json.num "Infinity") = 1 from rfl]
            simp⟩
          rw [show serializeVal lvl (Json.num "Infinity") =
            ['I', 'n', 'f', 'i', 'n', 'i', 't', 'y'] from rfl,
            show (['I', 'n', 'f', 'i', 'n', 'i', 't', 'y'] ++ rest : List Char) =
              'I' :: ('n' :: 'f' :: 'i' :: 'n' :: 'i' :: 't' :: 'y' :: rest)
              from rfl]
          simp only [parseValue]
          rw [skipWs_cons_not_ws (by decide)]
          simp [List.isPrefixOf, show isNumChar 'I' = false from rfl,
            show validNumberLit [] = false from rfl, List.takeWhile]
        · refine ⟨?_, by
            rw [show serializeVal lvl (Json.num "-Infinity") =
              ['-', 'I', 'n', 'f', 'i', 'n', 'i', 't', 'y'] from rfl,
              show sizeJ (Json.num "-Infinity") = 1 from rfl]
            simp⟩
          rw [show serializeVal lvl (Json.num "-Infinity") =
            ['-', 'I', 'n', 'f', 'i', 'n', 'i', 't', 'y'] from rfl,
            show (['-', 'I', 'n', 'f', 'i', 'n', 'i', 't', 'y'] ++ rest :
              List Char) =
              '-' :: ('I' :: 'n' :: 'f' :: 'i' :: 'n' :: 'i' :: 't' :: 'y' :: rest)
              from rfl]
          simp only [parseValue]
          rw [skipWs_cons_not_ws (by decide)]
          simp [List.isPrefixOf, show isNumChar '-' = true from rfl,
            show isNumChar 'I' = false from rfl,
            show validNumberLit ['-'] = false from rfl, List.takeWhile]
      | str s =>
        refine ⟨?_, by
          rw [show serializeVal lvl (Json.str s) = escapeString s from rfl,
            show sizeJ (Json.str s) = 1 from rfl, escapeString]
          simp⟩
        rw [show serializeVal lvl (Json.str s) = escapeString s from rfl,
          escapeString, List.cons_append, List.append_assoc]
        simp only [parseValue]
        rw [skipWs_cons_not_ws (by decide)]
        simp only [show (('"' : Char) = '"') = True by simp, if_true]
        rw [show (['"'] : List Char) ++ rest = '"' :: rest from rfl,
          parseStringBody_escape]
        simp
      | arr xs =>
        cases xs with
        | nil =>
          refine ⟨?_, by
            rw [show serializeVal lvl (Json.arr []) = ['[', ']'] from rfl,
              show sizeJ (Json.arr []) = 1 + sizeElemsJ [] from rfl,
              show sizeElemsJ [] = 0 from rfl]
            simp⟩
          rw [show serializeVal lvl (Json.arr []) = ['[', ']'] from rfl,
            show ((['[', ']'] : List Char) ++ rest) = '[' :: (']' :: rest) from rfl]
          simp only [parseValue]
          rw [skipWs_cons_not_ws (by decide)]
          dsimp only
          rw [if_neg (by decide), if_neg (by decide), if_pos rfl,
            skipWs_cons_not_ws (by decide)]
          dsimp only
          rw [if_pos rfl]
        | cons x xs' =>
          have hwe : wfElems (x :: xs') = true := by
            rw [show wfJson (Json.arr (x :: xs')) = wfElems (x :: xs')
              from rfl] at hw
            exact hw
          have hwx : wfJson x = true := by
            rw [show wfElems (x :: xs') = (wfJson x && wfElems xs') from rfl,
              Bool.and_eq_true] at hwe
            exact hwe.1
          have hsz' : sizeElemsJ (x :: xs') ≤ fuel := by
            rw [show sizeJ (Json.arr (x :: xs')) = 1 + sizeElemsJ (x :: xs')
              from rfl] at hsz
            omega
          obtain ⟨hE1, hE2⟩ := ihE (x :: xs') lvl rest (by simp) hwe hsz'
          obtain ⟨mid, hmid, hmidnil, hmidcons⟩ :=
            serializeElems_cons_decomp lvl x xs'
          obtain ⟨c, cs, hval, hcws, hcbr, hcbr2⟩ := serializeVal_head (lvl + 1) x hwx
          constructor
          · rw [show serializeVal lvl (Json.arr (x :: xs')) =
              '[' :: '
' :: (serializeElems lvl (x :: xs') ++
                ('
' :: indentChars lvl ++ [']'])) from rfl]
            simp only [List.cons_append, List.append_assoc,
              List.singleton_append, List.nil_append]
            simp only [parseValue]
            rw [skipWs_cons_not_ws (by decide)]
            dsimp only
            rw [if_neg (by decide), if_neg (by decide), if_pos rfl]
            have hsk : skipWs ('
' :: (serializeElems lvl (x :: xs') ++
                ('
' :: (indentChars lvl ++ ']' :: rest)))) =
                c :: (cs ++ (mid ++ ('
' :: (indentChars lvl ++ ']' :: rest)))) := by
              rw [skipWs_newline, hmid, List.append_assoc,
                skipWs_of_ws_run (indentChars_ws (lvl + 1)), hval]
              simp only [List.cons_append, List.append_assoc]
              rw [skipWs_cons_not_ws hcws]
            rw [hsk]
            dsimp only
            rw [if_neg hcbr]
            rw [show (c :: (cs ++ (mid ++ ('
' :: (indentChars lvl ++
              ']' :: rest))))) = skipWs ('
' :: (serializeElems lvl (x :: xs') ++
                ('
' :: (indentChars lvl ++ ']' :: rest)))) from hsk.symm,
              parseElems_skipWs, parseElems_newline, hE1]
            rfl
          · rw [show serializeVal lvl (Json.arr (x :: xs')) =
              '[' :: '
' :: (serializeElems lvl (x :: xs') ++
                ('
' :: indentChars lvl ++ [']'])) from rfl,
              show sizeJ (Json.arr (x :: xs')) = 1 + sizeElemsJ (x :: xs')
                from rfl]
            simp only [List.length_cons, List.length_append]
            omega
      | obj kvs =>
        cases kvs with
        | nil =>
          refine ⟨?_, by
            rw [show serializeVal lvl (Json.obj []) = ['{', '}'] from rfl,
              show sizeJ (Json.obj []) = 1 + sizeMemsJ [] from rfl,
              show sizeMemsJ [] = 0 from rfl]
            simp⟩
          rw [show serializeVal lvl (Json.obj []) = ['{', '}'] from rfl,
            show ((['{', '}'] : List Char) ++ rest) = '{' :: ('}' :: rest) from rfl]
          simp only [parseValue]
          rw [skipWs_cons_not_ws (by decide)]
          dsimp only
          rw [if_neg (by decide), if_pos rfl,
            skipWs_cons_not_ws (by decide)]
          dsimp only
          rw [if_pos rfl]
        | cons kv kvs' =>
          obtain ⟨k, v⟩ := kv
          have hwm : wfMems ((k, v) :: kvs') = true := by
            rw [show wfJson (Json.obj ((k, v) :: kvs')) =
              wfMems ((k, v) :: kvs') from rfl] at hw
            exact hw
          have hsz' : sizeMemsJ ((k, v) :: kvs') ≤ fuel := by
            rw [show sizeJ (Json.obj ((k, v) :: kvs')) =
              1 + sizeMemsJ ((k, v) :: kvs') from rfl] at hsz
            omega
          obtain ⟨hM1, hM2⟩ := ihM ((k, v) :: kvs') lvl rest (by simp) hwm hsz'
          obtain ⟨mid, hmid, hmidnil, hmidcons⟩ :=
            serializeMems_cons_decomp lvl k v kvs'
          constructor
          · rw [show serializeVal lvl (Json.obj ((k, v) :: kvs')) =
              '{' :: '
' :: (serializeMems lvl ((k, v) :: kvs') ++
                ('
' :: indentChars lvl ++ ['}'])) from rfl]
            simp only [List.cons_append, List.append_assoc,
              List.singleton_append, List.nil_append]
            simp only [parseValue]
            rw [skipWs_cons_not_ws (by decide)]
            dsimp only
            rw [if_neg (by decide), if_pos rfl]
            have hsk : skipWs ('
' :: (serializeMems lvl ((k, v) :: kvs') ++
                '
' :: (indentChars lvl ++ '}' :: rest))) =
                '"' :: (escapeList k.toList ++
                  ('"' :: ':' :: ' ' :: (serializeVal (lvl + 1) v ++
                    (mid ++ '
' :: (indentChars lvl ++ '}' :: rest))))) := by
              rw [skipWs_newline, hmid]
              simp only [List.cons_append, List.append_assoc]
              rw [skipWs_of_ws_run (indentChars_ws (lvl + 1)),
                skipWs_cons_not_ws (by decide)]
            rw [hsk]
            dsimp only
            rw [if_neg (by decide)]
            rw [show ('"' :: (escapeList k.toList ++
              ('"' :: ':' :: ' ' :: (serializeVal (lvl + 1) v ++
                (mid ++ '
' :: (indentChars lvl ++ '}' :: rest)))))) =
              skipWs ('
' :: (serializeMems lvl ((k, v) :: kvs') ++
                '
' :: (indentChars lvl ++ '}' :: rest))) from hsk.symm,
              skipWs_newline, hM1]
            rfl
          · rw [show serializeVal lvl (Json.obj ((k, v) :: kvs')) =
              '{' :: '
' :: (serializeMems lvl ((k, v) :: kvs') ++
                ('
' :: indentChars lvl ++ ['}'])) from rfl,
              show sizeJ (Json.obj ((k, v) :: kvs')) =
                1 + sizeMemsJ ((k, v) :: kvs') from rfl]
            simp only [List.length_cons, List.length_append]
            omega
    · intro xs lvl rest hne hw hsz
      rcases xs with _ | ⟨x, xs'⟩
      · exact absurd rfl hne
      obtain ⟨mid, hmid, hmidnil, hmidcons⟩ := serializeElems_cons_decomp lvl x xs'
      have hwx : wfJson x = true := by
        rw [show wfElems (x :: xs') = (wfJson x && wfElems xs') from rfl,
          Bool.and_eq_true] at hw
        exact hw.1
      have hwxs' : wfElems xs' = true := by
        rw [show wfElems (x :: xs') = (wfJson x && wfElems xs') from rfl,
          Bool.and_eq_true] at hw
        exact hw.2
      have hszx : sizeJ x ≤ fuel := by
        rw [show sizeElemsJ (x :: xs') = 1 + sizeJ x + sizeElemsJ xs'
          from rfl] at hsz
        omega
      have hszxs' : sizeElemsJ xs' ≤ fuel := by
        rw [show sizeElemsJ (x :: xs') = 1 + sizeJ x + sizeElemsJ xs'
          from rfl] at hsz
        omega
      have hsep2 : sepOK (mid ++ ('
' :: (indentChars lvl ++ ']' :: rest))) := by
        by_cases hxs' : xs' = []
        · rw [hmidnil hxs']
          intro c hc
          simp at hc
          rw [← hc]
          rfl
        · rw [hmidcons hxs']
          intro c hc
          simp at hc
          rw [← hc]
          rfl
      obtain ⟨hP1, hP2⟩ := ihP x (lvl + 1)
        (mid ++ ('
' :: (indentChars lvl ++ ']' :: rest))) hwx hszx hsep2
      constructor
      · rw [hmid]
        simp only [parseElems]
        simp only [List.append_assoc]
        rw [parseValue_ws_run (indentChars_ws (lvl + 1)), hP1]
        dsimp only
        by_cases hxs' : xs' = []
        · subst hxs'
          rw [hmidnil rfl, List.nil_append, skipWs_newline,
            skipWs_of_ws_run (indentChars_ws lvl),
            skipWs_cons_not_ws (by decide)]
          rfl
        · rw [hmidcons hxs']
          simp only [List.cons_append]
          rw [skipWs_cons_not_ws (by decide)]
          dsimp only
          rw [if_pos rfl]
          rw [show (parseElems fuel ('\n' :: (serializeElems lvl xs' ++
            '\n' :: (indentChars lvl ++ ']' :: rest)))) =
            parseElems fuel (serializeElems lvl xs' ++
              '\n' :: (indentChars lvl ++ ']' :: rest))
            from parseElems_newline fuel _]
          rw [(ihE xs' lvl rest hxs' hwxs' hszxs').1]
      · by_cases hxs' : xs' = []
        · subst hxs'
          rw [hmid, hmidnil rfl,
            show sizeElemsJ [x] = 1 + sizeJ x + sizeElemsJ [] from rfl,
            show sizeElemsJ ([] : List Json) = 0 from rfl]
          simp only [List.length_append, List.append_nil, indentChars,
            List.length_replicate]
          omega
        · rw [hmid, hmidcons hxs',
            show sizeElemsJ (x :: xs') = 1 + sizeJ x + sizeElemsJ xs'
              from rfl]
          have hlen := (ihE xs' lvl rest hxs' hwxs' hszxs').2
          simp only [List.length_append, List.length_cons, indentChars,
            List.length_replicate]
          omega
    · intro kvs lvl rest hne hw hsz
      rcases kvs with _ | ⟨⟨k, v⟩, kvs'⟩
      · exact absurd rfl hne
      obtain ⟨mid, hmid, hmidnil, hmidcons⟩ := serializeMems_cons_decomp lvl k v kvs'
      have hwv : wfJson v = true := by
        rw [show wfMems ((k, v) :: kvs') = (wfJson v && wfMems kvs') from rfl,
          Bool.and_eq_true] at hw
        exact hw.1
      have hwkvs' : wfMems kvs' = true := by
        rw [show wfMems ((k, v) :: kvs') = (wfJson v && wfMems kvs') from rfl,
          Bool.and_eq_true] at hw
        exact hw.2
      have hszv : sizeJ v ≤ fuel := by
        rw [show sizeMemsJ ((k, v) :: kvs') = 1 + sizeJ v + sizeMemsJ kvs'
          from rfl] at hsz
        omega
      have hszkvs' : sizeMemsJ kvs' ≤ fuel := by
        rw [show sizeMemsJ ((k, v) :: kvs') = 1 + sizeJ v + sizeMemsJ kvs'
          from rfl] at hsz
        omega
      have hsep2 : sepOK (mid ++ ('\n' :: (indentChars lvl ++ '}' :: rest))) := by
        by_cases hkvs' : kvs' = []
        · rw [hmidnil hkvs']
          intro c hc
          simp at hc
          rw [← hc]
          rfl
        · rw [hmidcons hkvs']
          intro c hc
          simp at hc
          rw [← hc]
          rfl
      obtain ⟨hP1, hP2⟩ := ihP v (lvl + 1)
        (mid ++ ('\n' :: (indentChars lvl ++ '}' :: rest))) hwv hszv hsep2
      constructor
      · rw [hmid]
        simp only [List.cons_append, List.append_assoc]
        rw [skipWs_of_ws_run (indentChars_ws (lvl + 1)),
          skipWs_cons_not_ws (by decide)]
        simp only [parseMems]
        rw [if_pos trivial]
        rw [parseStringBody_escape]
        dsimp only
        rw [skipWs_cons_not_ws (by decide)]
        dsimp only
        rw [if_pos rfl]
        rw [show (' ' :: (serializeVal (lvl + 1) v ++ (mid ++
          '\n' :: (indentChars lvl ++ '}' :: rest)))) =
          [' '] ++ (serializeVal (lvl + 1) v ++ (mid ++
          '\n' :: (indentChars lvl ++ '}' :: rest))) from rfl,
          parseValue_ws_run (show ∀ c ∈ ([' '] : List Char),
            isJsonWs c = true by decide), hP1]
        dsimp only
        by_cases hkvs' : kvs' = []
        · subst hkvs'
          rw [hmidnil rfl, List.nil_append, skipWs_newline,
            skipWs_of_ws_run (indentChars_ws lvl),
            skipWs_cons_not_ws (by decide)]
          dsimp only
          rw [if_neg (by decide), if_pos rfl]
          rfl
        · rw [hmidcons hkvs']
          simp only [List.cons_append]
          rw [skipWs_cons_not_ws (by decide)]
          dsimp only
          rw [if_pos rfl]
          rw [skipWs_newline]
          rw [(ihM kvs' lvl rest hkvs' hwkvs' hszkvs').1]
          rfl
      · by_cases hkvs' : kvs' = []
        · subst hkvs'
          rw [hmid, hmidnil rfl,
            show sizeMemsJ [(k, v)] = 1 + sizeJ v + sizeMemsJ [] from rfl,
            show sizeMemsJ ([] : List (String × Json)) = 0 from rfl]
          simp only [List.length_append, List.append_nil, List.length_cons,
            indentChars, List.length_replicate]
          omega
        · rw [hmid, hmidcons hkvs',
            show sizeMemsJ ((k, v) :: kvs') = 1 + sizeJ v + sizeMemsJ kvs'
              from rfl]
          have hlen := (ihM kvs' lvl rest hkvs' hwkvs' hszkvs').2
          simp only [List.length_append, List.length_cons, indentChars,
            List.length_replicate]
          omega

/-- Serializing any well-formed value and parsing the result gives the value
back: `json.load` inverts `json.dump(..., indent=2, ensure_ascii=False)`. -/
theorem parse_serialize (j : Json) (hw : wfJson j = true) :
    parseJson (dumps j) = some j := by
  have h1 := ((roundtrip_fuel (sizeJ j)).1 j 0 [] hw le_rfl
    (by intro c hc; cases hc)).2
  have h2 := ((roundtrip_fuel ((serializeVal 0 j).length + 2)).1 j 0 [] hw
    (by omega) (by intro c hc; cases hc)).1
  rw [List.append_nil] at h2
  rw [show parseJson (dumps j) =
    (match parseValue ((serializeVal 0 j).length + 2) (serializeVal 0 j) with
     | some (v, r) => if (skipWs r).isEmpty then some v else none
     | none => none) from rfl]
  rw [h2]
  rfl

/-- C5: for every sequence of well-formed records, persisting it with
`save_memories` to writable storage and reading it back with `load_memories`
reconstructs exactly the same sequence (round-trip fidelity of the JSON
persistence, absent concurrent mutation of the backing file). -/
theorem C5_roundtrip (mems : List Json) (fs : FS)
    (hwf : wfElems mems = true) (hwr : fs.writable = true) :
    load_memories (save_memories mems fs).1 = Json.arr mems := by
  rw [save_memories, if_pos hwr]
  rw [load_memories]
  dsimp only
  rw [parse_serialize (Json.arr mems)
    (by rw [show wfJson (Json.arr mems) = wfElems mems from rfl]; exact hwf)]
  rfl

/-- C5 witness: a concrete one-record store round-trips through the file. -/
theorem C5_witness :
    wfElems [Json.obj [("id", Json.str "a"), ("score", Json.num "0.5")]] = true ∧
    (FS.mk none true).writable = true ∧
    load_memories (save_memories
      [Json.obj [("id", Json.str "a"), ("score", Json.num "0.5")]]
      (FS.mk none true)).1 =
      Json.arr [Json.obj [("id", Json.str "a"), ("score", Json.num "0.5")]] :=
  ⟨by decide, rfl, C5_roundtrip _ _ (by decide) rfl⟩

